import Mathlib

/-!
Verification of the dependency-resolution engine of the copy-with-dependencies
extension.  The TypeScript sources are shallowly embedded: the mutable
`DependencyResolver` class becomes explicit state passing, the Node `fs` module
becomes a function `String → Option String` (file contents by path, `none`
modelling a read failure / missing file), and the Node `path` module is
modelled by a small executable POSIX path implementation.  Language plugins
(`LanguagePlugin`) are records of pure functions, mirroring the plugin
interface in types.ts.  All definitions are executable so that concrete
scenarios evaluate by `decide` / `rfl`.

JavaScript string operations are modelled over `String.data` with structural
recursion (the built-in `String.splitOn` is not kernel-reducible).
-/

namespace CopyDeps

/-- Splits a character list at every occurrence of the separator character.
Model of the JavaScript `content.split(sep)` for a one-character separator:
always returns at least one (possibly empty) chunk. -/
def charSplit (sep : Char) : List Char → List (List Char)
  | [] => [[]]
  | x :: xs =>
    let r := charSplit sep xs
    if x = sep then [] :: r
    else
      match r with
      | [] => [[x]]
      | y :: ys => (x :: y) :: ys

/-- Model of the JavaScript `s.startsWith(pre)`. -/
def jsStartsWith (s pre : String) : Bool :=
  pre.data.isPrefixOf s.data

/-- Model of the JavaScript `s.includes(sub)` (substring containment). -/
def jsIncludes (s sub : String) : Bool :=
  decide (sub.data <:+: s.data)

/-- The lines of a string, split at newline characters.  Model of the
JavaScript `content.split('\n')`. -/
def jsLines (s : String) : List String :=
  (charSplit '\n' s.data).map String.mk

/-- Model of `lines.join('\n')`. -/
def jsJoinLines (l : List String) : String :=
  String.mk (List.intercalate ['\n'] (l.map String.data))

/-! ## Model of the Node `path` module (external collaborator)

Only the POSIX behaviour needed by the resolver is modelled: `dirname`,
`join` and `resolve` on forward-slash separated paths.  Trailing separators
and `..` escaping above the root receive no special handling; the resolver
only ever feeds it workspace-internal paths. -/

namespace NodePath

/-- The raw segments of a path (empty segments preserved). -/
def segsOf (p : String) : List String :=
  (charSplit '/' p.data).map String.mk

/-- Whether a path is absolute. -/
def isAbs (p : String) : Bool :=
  jsStartsWith p "/"

/-- Path normalisation over segments: drops empty and `.` segments and lets
`..` cancel the preceding segment.  The accumulator holds the processed
segments in reverse. -/
def normSegs (acc : List String) : List String → List String
  | [] => acc.reverse
  | s :: rest =>
    if s = "" || s = "." then normSegs acc rest
    else if s = ".." then
      match acc with
      | [] => normSegs [] rest
      | _ :: t => normSegs t rest
    else normSegs (s :: acc) rest

/-- Reassembles a path from normalised segments. -/
def unsplit (abs : Bool) (segs : List String) : String :=
  let body := String.mk (List.intercalate ['/'] (segs.map String.data))
  if abs then "/" ++ body
  else if segs = [] then "." else body

/-- Model of `path.join(a, b)`. -/
def join (a b : String) : String :=
  unsplit (isAbs a) (normSegs [] (segsOf a ++ segsOf b))

/-- Model of `path.resolve(base, rel)` for the two-argument form used by the
resolver (an absolute `rel` wins, otherwise it is joined onto `base`). -/
def resolve (base rel : String) : String :=
  if isAbs rel then unsplit true (normSegs [] (segsOf rel))
  else unsplit (isAbs base) (normSegs [] (segsOf base ++ segsOf rel))

/-- Model of `path.dirname(p)`: everything before the final separator. -/
def dirname (p : String) : String :=
  let rest := p.data.reverse.dropWhile (· ≠ '/')
  match rest with
  | [] => "."
  | [_] => "/"
  | _ :: t => String.mk t.reverse

/-- Model of `path.relative(root, p)`, simplified to stripping the root
prefix; only used to fill the informational `relativePath` fields. -/
def relative (root p : String) : String :=
  if jsStartsWith p (root ++ "/") then
    String.mk (p.data.drop (root.data.length + 1))
  else p

end NodePath

/-! ## Data model (types.ts) -/

/-- A zero-based line/column position (model of `vscode.Position`). -/
structure Position where
  line : Nat
  character : Nat
deriving DecidableEq, Repr

/-- A selection range (model of `vscode.Range`).  The source field `end` is a
reserved word in Lean and is named `stop` here. -/
structure Range where
  start : Position
  stop : Position
deriving DecidableEq, Repr

/-- The `type` field of a `CodeFragment`:
`'file' | 'class' | 'function' | 'selection' | 'method'`. -/
inductive FragmentType where
  | file
  | classF
  | functionF
  | selection
  | method
deriving DecidableEq, Repr

/-- The `type` field of a `Dependency`:
`'import' | 'type' | 'interface' | 'class' | 'function' | 'constant' | 'enum'`. -/
inductive DepType where
  | importD
  | typeD
  | interfaceD
  | classD
  | functionD
  | constantD
  | enumD
deriving DecidableEq, Repr

/-- The `type` field of an `ImportInfo`:
`'default' | 'named' | 'namespace' | 'type' | 'side-effect'`. -/
inductive ImportKind where
  | default
  | named
  | namespaceI
  | typeI
  | sideEffect
deriving DecidableEq, Repr

/-- `CodeFragment` from types.ts. -/
structure CodeFragment where
  content : String
  filePath : String
  relativePath : Option String
  range : Option Range
  type : FragmentType
  language : String
deriving DecidableEq, Repr

/-- `ImportInfo` from types.ts. -/
structure ImportInfo where
  path : String
  names : List String
  type : ImportKind
  raw : String
  position : Option Position
  fromFile : Option String
deriving DecidableEq, Repr

/-- `Dependency` from types.ts. -/
structure Dependency where
  filePath : String
  content : String
  relativePath : String
  type : DepType
  name : Option String
deriving DecidableEq, Repr

/-- `ResolveOptions` from types.ts.  `maxDepth` is optional in the source;
`includeExternal` is optional with `undefined` acting as `false`, which a
plain `Bool` captures. -/
structure ResolveOptions where
  maxDepth : Option Nat
  includeComments : Bool
  includeExternal : Bool
  workspaceRoot : String
deriving DecidableEq, Repr

/-- `ResolveResult` from types.ts. -/
structure ResolveResult where
  dependencies : List Dependency
  targetFragment : CodeFragment
  errors : List String
deriving DecidableEq, Repr

/-- The file system as seen through the Node `fs` module: contents by path,
`none` when reading throws (missing file).  `fs.existsSync` is `isSome`. -/
def FileSys : Type := String → Option String

/-- Model of `fs.existsSync`. -/
def existsSync (fs : FileSys) (p : String) : Bool :=
  (fs p).isSome

/-- A language plugin as consumed by the resolver (the `LanguagePlugin`
interface of types.ts, with the asynchronous methods as pure functions).
`extractLocalDependencies` is an optional method in the source. -/
structure LanguagePlugin where
  languageId : String
  fileExtensions : List String
  parseImports : String → String → List ImportInfo
  resolveDependency : ImportInfo → String → Option Dependency
  extractLocalDependencies : Option (String → Range → String → String → List Dependency)
  isExternalDependency : String → Bool

/-- `BaseLanguagePlugin.isExternalDependency`: external iff the specifier does
not start with `.` or `/`, or mentions node_modules. -/
def isExternalDependency (importPath : String) : Bool :=
  if !(jsStartsWith importPath ".") && !(jsStartsWith importPath "/") then true
  else if jsIncludes importPath "node_modules" then true
  else false

end CopyDeps

namespace CopyDeps

/-! ## DependencyResolver (the dependency resolution engine)

The class fields `visitedFiles`, `dependencyGraph` and `resolvedDependencies`
become an explicit `ResolverState`, with JavaScript `Map` / `Set` modelled as
insertion-ordered association lists / lists (JavaScript iteration order is
insertion order, which the topological sort depends on).  The local `errors`
array of `resolve` is threaded through the same record. -/

structure ResolverState where
  visitedFiles : List String
  dependencyGraph : List (String × List String)
  resolvedDependencies : List (String × Dependency)
  errors : List String
deriving DecidableEq, Repr

namespace ResolverState

/-- The state after `visitedFiles.clear(); dependencyGraph.clear();
resolvedDependencies.clear()` plus a fresh `errors` array. -/
def empty : ResolverState := ⟨[], [], [], []⟩

end ResolverState

namespace DependencyResolver

/-- `Map.set` on an insertion-ordered association list: updates in place or
appends. -/
def mapSet {β : Type} (m : List (String × β)) (k : String) (v : β) :
    List (String × β) :=
  if (m.lookup k).isSome then m.map (fun e => if e.1 = k then (k, v) else e)
  else m ++ [(k, v)]

/-- `Set.add` on an insertion-ordered list. -/
def setAdd (s : List String) (v : String) : List String :=
  if v ∈ s then s else s ++ [v]

/-- `this.dependencyGraph.get(filePath)!.add(resolvedPath)`.  The entry for
`filePath` exists by the time this is called. -/
def addEdge (g : List (String × List String)) (k v : String) :
    List (String × List String) :=
  g.map (fun e => if e.1 = k then (e.1, setAdd e.2 v) else e)

/-- `DependencyResolver.resolveImportPath`: external specifiers are never
resolved; otherwise the base path is resolved against the workspace root
(leading `/`) or the importing file's directory, and the first existing
candidate wins: each extension appended, then the bare path, then an index
file with each extension. -/
def resolveImportPath (fs : FileSys) (plugin : LanguagePlugin)
    (importPath fromFile workspaceRoot : String) : Option String :=
  if plugin.isExternalDependency importPath then none
  else
    let fromDir := NodePath.dirname fromFile
    let resolvedPath :=
      if jsStartsWith importPath "/" then NodePath.join workspaceRoot importPath
      else NodePath.resolve fromDir importPath
    let extensions := plugin.fileExtensions
    match extensions.find? (fun ext => existsSync fs (resolvedPath ++ ext)) with
    | some ext => some (resolvedPath ++ ext)
    | none =>
      if existsSync fs resolvedPath then some resolvedPath
      else
        match extensions.find?
            (fun ext => existsSync fs (NodePath.join resolvedPath ("index" ++ ext))) with
        | some ext => some (NodePath.join resolvedPath ("index" ++ ext))
        | none => none

/-- One import of the `for (const importInfo of imports)` loop body of
`resolveDependenciesRecursive`, except for the recursive call: returns the
updated state together with the resolved path to recurse into (when the
dependency was newly resolved). -/
def processImport (fs : FileSys) (plugin : LanguagePlugin)
    (options : ResolveOptions) (filePath : String) (importInfo : ImportInfo)
    (st : ResolverState) : ResolverState × Option String :=
  if !options.includeExternal && plugin.isExternalDependency importInfo.path then
    (st, none)
  else
    let importInfo :=
      if importInfo.fromFile.isNone then { importInfo with fromFile := some filePath }
      else importInfo
    match resolveImportPath fs plugin importInfo.path filePath options.workspaceRoot with
    | none => (st, none)
    | some resolvedPath =>
      let st := { st with dependencyGraph := addEdge st.dependencyGraph filePath resolvedPath }
      if (st.resolvedDependencies.lookup resolvedPath).isSome then (st, none)
      else
        match plugin.resolveDependency importInfo options.workspaceRoot with
        | some dependency =>
          ({ st with resolvedDependencies :=
              st.resolvedDependencies ++ [(resolvedPath, dependency)] }, some resolvedPath)
        | none => (st, none)

/-- The `for (const importInfo of imports)` loop of
`resolveDependenciesRecursive`: `recur` is the recursive re-entry into
`resolveDependenciesRecursive` at the next depth, taken as a parameter so that
the recursion is structural on the depth fuel. -/
def resolveImportsLoop (fs : FileSys) (plugin : LanguagePlugin)
    (options : ResolveOptions) (filePath : String)
    (recur : String → ResolverState → ResolverState) :
    List ImportInfo → ResolverState → ResolverState
  | [], st => st
  | importInfo :: rest, st =>
    let (st, recurseInto) := processImport fs plugin options filePath importInfo st
    let st :=
      match recurseInto with
      | some resolvedPath => recur resolvedPath st
      | none => st
    resolveImportsLoop fs plugin options filePath recur rest st

/-- `DependencyResolver.resolveDependenciesRecursive`.  The source checks
`currentDepth >= maxDepth` and recurses at `currentDepth + 1`; here
`fuel = maxDepth - currentDepth`, so `fuel = 0` is the depth cut-off and the
recursive call descends structurally on `fuel`. -/
def resolveDependenciesRecursive (fs : FileSys) (plugin : LanguagePlugin)
    (options : ResolveOptions) : Nat → String → ResolverState → ResolverState
  | 0, _, st => st
  | fuel + 1, filePath, st =>
    if filePath ∈ st.visitedFiles then st
    else
      match fs filePath with
      | none => { st with errors := st.errors ++ ["Cannot read file: " ++ filePath] }
      | some content =>
        let st := { st with visitedFiles := st.visitedFiles ++ [filePath] }
        let imports := plugin.parseImports content filePath
        let st :=
          if (st.dependencyGraph.lookup filePath).isSome then st
          else { st with dependencyGraph := st.dependencyGraph ++ [(filePath, [])] }
        resolveImportsLoop fs plugin options filePath
          (resolveDependenciesRecursive fs plugin options fuel) imports st

/-- The state of `topologicalSort`: the output array and the done /
in-progress sets of the three-colour depth-first traversal. -/
structure SortState where
  sorted : List Dependency
  visited : List String
  visiting : List String
deriving DecidableEq, Repr

/-- The recursive `visit` helper of `topologicalSort`: skip nodes in progress
(cycle) or done, otherwise mark in progress, visit the adjacency targets,
mark done and emit the node's resolved dependency (postorder).  The recursion
depth is bounded by the number of graph keys, so the fuel passed by
`topologicalSort` never runs out. -/
def visitSort (g : List (String × List String)) (r : List (String × Dependency)) :
    Nat → String → SortState → SortState
  | 0, _, s => s
  | fuel + 1, filePath, s =>
    if filePath ∈ s.visiting then s
    else if filePath ∈ s.visited then s
    else
      let s := { s with visiting := s.visiting ++ [filePath] }
      let s :=
        match g.lookup filePath with
        | some deps => deps.foldl (fun acc dep => visitSort g r fuel dep acc) s
        | none => s
      let s := { s with visiting := s.visiting.erase filePath,
                        visited := s.visited ++ [filePath] }
      match r.lookup filePath with
      | some dependency => { s with sorted := s.sorted ++ [dependency] }
      | none => s

/-- `DependencyResolver.topologicalSort`: depth-first traversal of every graph
key, then the resolved dependencies never visited (leaf nodes) are appended. -/
def topologicalSort (g : List (String × List String))
    (r : List (String × Dependency)) : List Dependency :=
  let fuel := g.length + 1
  let s := (g.map Prod.fst).foldl
    (fun acc filePath => if filePath ∈ acc.visited then acc
                         else visitSort g r fuel filePath acc)
    ⟨[], [], []⟩
  r.foldl (fun sorted e => if e.1 ∈ s.visited then sorted else sorted ++ [e.2]) s.sorted

/-- `const maxDepth = options.maxDepth || 10`: JavaScript `||` treats both
`undefined` and `0` as falsy, so `maxDepth = 0` falls back to the default 10. -/
def effectiveMaxDepth (maxDepth : Option Nat) : Nat :=
  match maxDepth with
  | some n => if n = 0 then 10 else n
  | none => 10

/-- `DependencyResolver.resolve`.  `priorState` is the mutable instance state
left over from any previous call; it is reset at entry (`clear()` on the
three fields).  `pluginOpt` is the result of the plugin lookup
(`getPluginForLanguage(fragment.language) || getPluginForFile(fragment.filePath)`),
an external registry.  Returns the final instance state together with the
`ResolveResult`. -/
def resolve (fs : FileSys) (pluginOpt : Option LanguagePlugin)
    (priorState : ResolverState) (fragment : CodeFragment)
    (options : ResolveOptions) : ResolverState × ResolveResult :=
  let st := ResolverState.empty
  let maxDepth := effectiveMaxDepth options.maxDepth
  match pluginOpt with
  | none =>
    (st, { dependencies := [],
           targetFragment := fragment,
           errors := ["No plugin found for language: " ++ fragment.language] })
  | some plugin =>
    let st := resolveDependenciesRecursive fs plugin options maxDepth fragment.filePath st
    let sortedDependencies := topologicalSort st.dependencyGraph st.resolvedDependencies
    let (st, localDependencies) :=
      match fragment.range, plugin.extractLocalDependencies with
      | some range, some extract =>
        -- the source also requires `fragment.filePath` to be truthy
        if fragment.filePath = "" then (st, [])
        else
          match fs fragment.filePath with
          | some fileContent =>
            (st, extract fileContent range fragment.filePath options.workspaceRoot)
          | none =>
            ({ st with errors :=
                st.errors ++ ["Cannot read file for local deps: " ++ fragment.filePath] }, [])
      | _, _ => (st, [])
    (st, { dependencies := sortedDependencies ++ localDependencies,
           targetFragment := fragment,
           errors := st.errors })

end DependencyResolver

end CopyDeps

namespace CopyDeps

/-! ## Claim C4: import-path resolution order -/

namespace DependencyResolver

/-- The base path an import specifier resolves against, before extension
probing: specifiers starting with a slash resolve from the workspace root,
all others relative to the importing file's directory. -/
def importBasePath (importPath fromFile workspaceRoot : String) : String :=
  if jsStartsWith importPath "/" then NodePath.join workspaceRoot importPath
  else NodePath.resolve (NodePath.dirname fromFile) importPath

/-- Modelled from the spec's words (section 4.1): the ordered candidate list
for an import's base path — each configured extension appended directly, then
the bare path, then an index file with each configured extension. -/
def candidatePaths (extensions : List String) (basePath : String) : List String :=
  extensions.map (fun ext => basePath ++ ext) ++ [basePath] ++
    extensions.map (fun ext => NodePath.join basePath ("index" ++ ext))

/-- Modelled from the spec's words (section 4.1): external specifiers are
never resolved; otherwise the first candidate existing on disk wins, and the
resolution fails when none exists. -/
def resolveImportPathSpec (fs : FileSys) (plugin : LanguagePlugin)
    (importPath fromFile workspaceRoot : String) : Option String :=
  if plugin.isExternalDependency importPath then none
  else (candidatePaths plugin.fileExtensions
          (importBasePath importPath fromFile workspaceRoot)).find?
         (fun p => existsSync fs p)

theorem find?_map_comp {β α : Type} (p : α → Bool) (f : β → α) (l : List β) :
    (l.map f).find? p = (l.find? (fun b => p (f b))).map f := by
  rw [List.find?_map]
  rfl

theorem resolveImportPath_eq_spec (fs : FileSys) (plugin : LanguagePlugin)
    (importPath fromFile workspaceRoot : String) :
    resolveImportPath fs plugin importPath fromFile workspaceRoot =
      resolveImportPathSpec fs plugin importPath fromFile workspaceRoot := by
  unfold resolveImportPath resolveImportPathSpec candidatePaths importBasePath
  by_cases hext : plugin.isExternalDependency importPath
  · simp [hext]
  · simp only [hext, if_false, List.find?_append]
    rw [find?_map_comp, find?_map_comp]
    cases h1 : plugin.fileExtensions.find?
        (fun ext => existsSync fs
          ((if jsStartsWith importPath "/" then NodePath.join workspaceRoot importPath
            else NodePath.resolve (NodePath.dirname fromFile) importPath) ++ ext)) with
    | some ext => simp [h1]
    | none =>
      simp only [h1, Option.map_none, Option.none_or]
      by_cases hbare : existsSync fs
          (if jsStartsWith importPath "/" then NodePath.join workspaceRoot importPath
           else NodePath.resolve (NodePath.dirname fromFile) importPath)
      · simp [hbare, List.find?]
      · simp only [hbare, if_false]
        simp only [List.find?, hbare, Option.or]
        cases h2 : plugin.fileExtensions.find?
            (fun ext => existsSync fs
              (NodePath.join
                (if jsStartsWith importPath "/" then NodePath.join workspaceRoot importPath
                 else NodePath.resolve (NodePath.dirname fromFile) importPath)
                ("index" ++ ext))) with
        | some ext => simp [h2]
        | none => simp [h2]

end DependencyResolver

end CopyDeps

namespace CopyDeps

namespace DependencyResolver

/-! ## Topological sort: basic invariants and the exactly-once property -/

/-- Invariant of the topological-sort traversal state: the done and
in-progress sets are duplicate-free and disjoint, and the output is exactly
the resolved dependencies of the done nodes in completion order. -/
def SortInv (r : List (String × Dependency)) (s : SortState) : Prop :=
  s.visited.Nodup ∧ s.visiting.Nodup ∧ (∀ x ∈ s.visiting, x ∉ s.visited) ∧
    s.sorted = s.visited.filterMap (fun q => r.lookup q)

theorem visitSort_basic (g : List (String × List String))
    (r : List (String × Dependency)) :
    ∀ fuel p s, SortInv r s →
      (visitSort g r fuel p s).visiting = s.visiting ∧
      (∃ d, (visitSort g r fuel p s).visited = s.visited ++ d) ∧
      SortInv r (visitSort g r fuel p s) := by
  intro fuel
  induction fuel with
  | zero =>
    intro p s hs
    exact ⟨rfl, ⟨[], by simp [visitSort]⟩, hs⟩
  | succ fuel ih =>
    have hfold : ∀ (deps : List String) (s : SortState), SortInv r s →
        ((deps.foldl (fun acc dep => visitSort g r fuel dep acc) s).visiting = s.visiting ∧
         (∃ d, (deps.foldl (fun acc dep => visitSort g r fuel dep acc) s).visited
            = s.visited ++ d) ∧
         SortInv r (deps.foldl (fun acc dep => visitSort g r fuel dep acc) s)) := by
      intro deps
      induction deps with
      | nil => intro s hs; exact ⟨rfl, ⟨[], by simp⟩, hs⟩
      | cons d rest ihr =>
        intro s hs
        obtain ⟨h1, ⟨d1, h2⟩, h3⟩ := ih d s hs
        obtain ⟨g1, ⟨d2, g2⟩, g3⟩ := ihr _ h3
        exact ⟨by simp [List.foldl, g1, h1], ⟨d1 ++ d2, by simp [List.foldl, g2, h2]⟩,
               by simpa using g3⟩
    intro p s hs
    obtain ⟨hnd, hng, hdisj, hsync⟩ := hs
    by_cases hvtg : p ∈ s.visiting
    · have hstop : visitSort g r (fuel + 1) p s = s := by
        simp [visitSort, hvtg]
      rw [hstop]
      exact ⟨rfl, ⟨[], by simp⟩, hnd, hng, hdisj, hsync⟩
    · by_cases hvtd : p ∈ s.visited
      · have hstop : visitSort g r (fuel + 1) p s = s := by
          simp [visitSort, hvtg, hvtd]
        rw [hstop]
        exact ⟨rfl, ⟨[], by simp⟩, hnd, hng, hdisj, hsync⟩
      · have hinv1 : SortInv r { s with visiting := s.visiting ++ [p] } := by
          refine ⟨hnd, ?_, ?_, hsync⟩
          · simp [List.nodup_append, hng, hvtg]
          · intro x hx
            rcases List.mem_append.mp hx with hx | hx
            · exact hdisj x hx
            · simp only [List.mem_singleton] at hx
              subst hx; exact hvtd
        have key : ∀ s2 : SortState,
            s2.visiting = s.visiting ++ [p] →
            (∃ d, s2.visited = s.visited ++ d) →
            SortInv r s2 →
            ∀ out : SortState,
            (out =
              (let s3 : SortState :=
                { s2 with visiting := s2.visiting.erase p,
                          visited := s2.visited ++ [p] }
               match r.lookup p with
               | some dependency => { s3 with sorted := s3.sorted ++ [dependency] }
               | none => s3)) →
            out.visiting = s.visiting ∧
            (∃ d, out.visited = s.visited ++ d) ∧
            SortInv r out := by
          intro s2 hvtg2 hvtd2 hinv2 out heq
          obtain ⟨nd2, ng2, dj2, sy2⟩ := hinv2
          have hpmem2 : p ∈ s2.visiting := by rw [hvtg2]; simp
          have hpnotvis2 : p ∉ s2.visited := dj2 p hpmem2
          have herase : s2.visiting.erase p = s.visiting := by
            rw [hvtg2, List.erase_append_right _ hvtg]
            simp
          have hnd3 : (s2.visited ++ [p]).Nodup := by
            simp [List.nodup_append, nd2, hpnotvis2]
          have hdisj3 : ∀ x ∈ s.visiting, x ∉ s2.visited ++ [p] := by
            intro x hx
            have hx2 : x ∈ s2.visiting := by rw [hvtg2]; exact List.mem_append_left _ hx
            have hxnv : x ∉ s2.visited := dj2 x hx2
            simp only [List.mem_append, List.mem_singleton]
            rintro (h | h)
            · exact hxnv h
            · subst h; exact hvtg hx
          obtain ⟨dd, hdd⟩ := hvtd2
          have hsync3 : ∀ add : List Dependency,
              add = (r.lookup p).toList →
              s2.sorted ++ add = (s2.visited ++ [p]).filterMap (fun q => r.lookup q) := by
            intro add hadd
            rw [List.filterMap_append, ← sy2, hadd]
            cases hx : r.lookup p <;> simp [hx]
          rw [heq]
          cases hrl : r.lookup p with
          | some dependency =>
            simp only [hrl]
            refine ⟨by simpa using herase, ⟨dd ++ [p], by simp [hdd]⟩, hnd3, ?_, ?_, ?_⟩
            · rw [herase]; exact hng
            · simpa only [herase] using hdisj3
            · have hx := hsync3 [dependency] (by simp [hrl])
              simpa using hx
          | none =>
            simp only [hrl]
            refine ⟨by simpa using herase, ⟨dd ++ [p], by simp [hdd]⟩, hnd3, ?_, ?_, ?_⟩
            · rw [herase]; exact hng
            · simpa only [herase] using hdisj3
            · have hx := hsync3 [] (by simp [hrl])
              simpa using hx
        have hunf : visitSort g r (fuel + 1) p s =
            (let s1 : SortState := { s with visiting := s.visiting ++ [p] }
             let s2 : SortState :=
               match g.lookup p with
               | some deps => deps.foldl (fun acc dep => visitSort g r fuel dep acc) s1
               | none => s1
             let s3 : SortState :=
               { s2 with visiting := s2.visiting.erase p,
                         visited := s2.visited ++ [p] }
             match r.lookup p with
             | some dependency => { s3 with sorted := s3.sorted ++ [dependency] }
             | none => s3) := by
          simp only [visitSort, if_neg hvtg, if_neg hvtd]
        cases hlk : g.lookup p with
        | some deps =>
          obtain ⟨f1, f2, f3⟩ := hfold deps { s with visiting := s.visiting ++ [p] } hinv1
          refine key _ (by simpa using f1) ?_ f3 _ (by rw [hunf]; simp only [hlk])
          obtain ⟨d2, hd2⟩ := f2
          exact ⟨d2, by simpa using hd2⟩
        | none =>
          exact key { s with visiting := s.visiting ++ [p] } rfl ⟨[], by simp⟩ hinv1 _
            (by rw [hunf]; simp only [hlk])

end DependencyResolver

end CopyDeps

namespace CopyDeps

namespace DependencyResolver

theorem leaves_foldl_eq (w : List String) :
    ∀ (r : List (String × Dependency)) (acc : List Dependency),
      r.foldl (fun sorted e => if e.1 ∈ w then sorted else sorted ++ [e.2]) acc
        = acc ++ (r.filter (fun e => decide (e.1 ∉ w))).map Prod.snd := by
  intro r
  induction r with
  | nil => intro acc; simp
  | cons e rest ih =>
    intro acc
    by_cases he : e.1 ∈ w
    · simp [List.foldl, he, ih]
    · simp [List.foldl, he, ih]

theorem lookup_cons_eq (q k : String) (d : Dependency) (r : List (String × Dependency)) :
    List.lookup q ((k, d) :: r) = if q = k then some d else List.lookup q r := by
  rw [List.lookup_cons]
  by_cases h : q = k
  · simp [h]
  · have hb : (q == k) = false := beq_eq_false_iff_ne.mpr h
    simp [hb, h]

/-- Each resolved entry whose key was completed by the traversal is emitted by
the done-order filterMap, and each remaining entry by the leaves loop: the
combination is a permutation of all resolved dependencies. -/
theorem perm_split :
    ∀ (r : List (String × Dependency)), (r.map Prod.fst).Nodup →
    ∀ (w : List String), w.Nodup →
    (w.filterMap (fun q => r.lookup q) ++
      (r.filter (fun e => decide (e.1 ∉ w))).map Prod.snd).Perm (r.map Prod.snd) := by
  intro r
  induction r with
  | nil =>
    intro _ w _
    simp
  | cons e rest ih =>
    obtain ⟨k, d⟩ := e
    intro hr w hw
    simp only [List.map_cons, List.nodup_cons] at hr
    obtain ⟨hknot, hrest⟩ := hr
    by_cases hk : k ∈ w
    · obtain ⟨w₁, w₂, rfl⟩ := List.append_of_mem hk
      have hw' : (k :: (w₁ ++ w₂)).Nodup := List.nodup_middle.mp hw
      simp only [List.nodup_cons] at hw'
      obtain ⟨hknw, hw12⟩ := hw'
      have hknw1 : k ∉ w₁ := fun h => hknw (List.mem_append_left _ h)
      have hknw2 : k ∉ w₂ := fun h => hknw (List.mem_append_right _ h)
      have hcong1 : List.filterMap (fun q => List.lookup q ((k, d) :: rest)) w₁
          = List.filterMap (fun q => List.lookup q rest) w₁ := by
        apply List.filterMap_congr
        intro q hq
        rw [lookup_cons_eq]
        have hqk : q ≠ k := fun h => hknw1 (h ▸ hq)
        simp [hqk]
      have hcong2 : List.filterMap (fun q => List.lookup q ((k, d) :: rest)) w₂
          = List.filterMap (fun q => List.lookup q rest) w₂ := by
        apply List.filterMap_congr
        intro q hq
        rw [lookup_cons_eq]
        have hqk : q ≠ k := fun h => hknw2 (h ▸ hq)
        simp [hqk]
      have hfcong : List.filter (fun e => decide (e.1 ∉ w₁ ++ k :: w₂)) rest
          = List.filter (fun e => decide (e.1 ∉ w₁ ++ w₂)) rest := by
        apply List.filter_congr
        intro x hx
        have hxk : x.1 ≠ k := by
          intro h
          exact hknot (h ▸ List.mem_map_of_mem Prod.fst hx)
        simp only [decide_eq_decide, List.mem_append, List.mem_cons]
        constructor
        · intro hnot hor
          exact hnot (Or.elim hor Or.inl (fun h => Or.inr (Or.inr h)))
        · intro hnot hor
          rcases hor with h | h | h
          · exact hnot (Or.inl h)
          · exact hxk h
          · exact hnot (Or.inr h)
      have hfk : List.lookup k ((k, d) :: rest) = some d := by
        rw [lookup_cons_eq]
        simp
      have hfilter : List.filter (fun e => decide (e.1 ∉ w₁ ++ k :: w₂)) ((k, d) :: rest)
          = List.filter (fun e => decide (e.1 ∉ w₁ ++ w₂)) rest := by
        rw [List.filter_cons,
            if_neg (by simp : ¬ (decide ((k, d).1 ∉ w₁ ++ k :: w₂) = true))]
        exact hfcong
      rw [List.filterMap_append, List.filterMap_cons, hfk, hcong1, hcong2, hfilter]
      simp only [List.map_cons]
      refine List.Perm.trans ?_ ((ih hrest (w₁ ++ w₂) hw12).cons d)
      simp only [List.filterMap_append, List.append_assoc, List.cons_append]
      exact List.perm_middle
    · have hcong : List.filterMap (fun q => List.lookup q ((k, d) :: rest)) w
          = List.filterMap (fun q => List.lookup q rest) w := by
        apply List.filterMap_congr
        intro q hq
        rw [lookup_cons_eq]
        have hqk : q ≠ k := fun h => hk (h ▸ hq)
        simp [hqk]
      have hfilter : List.filter (fun e => decide (e.1 ∉ w)) ((k, d) :: rest)
          = (k, d) :: List.filter (fun e => decide (e.1 ∉ w)) rest := by
        rw [List.filter_cons, if_pos (by simpa using hk : (decide ((k, d).1 ∉ w)) = true)]
      rw [hcong, hfilter]
      simp only [List.map_cons]
      refine List.Perm.trans ?_ ((ih hrest w hw).cons d)
      exact List.perm_middle

/-- The initial sort state satisfies the invariant. -/
theorem sortInv_empty (r : List (String × Dependency)) :
    SortInv r ⟨[], [], []⟩ :=
  ⟨List.nodup_nil, List.nodup_nil, by simp, by simp⟩

/-- The top-level loop over the graph keys preserves the invariant. -/
theorem keysFold_basic (g : List (String × List String))
    (r : List (String × Dependency)) (fuel : Nat) :
    ∀ (keys : List String) (s : SortState), SortInv r s →
      SortInv r (keys.foldl
        (fun acc filePath => if filePath ∈ acc.visited then acc
                             else visitSort g r fuel filePath acc) s) := by
  intro keys
  induction keys with
  | nil => intro s hs; exact hs
  | cons k rest ih =>
    intro s hs
    by_cases hm : k ∈ s.visited
    · simpa [List.foldl, hm] using ih s hs
    · have hstep := (visitSort_basic g r fuel k s hs).2.2
      simpa [List.foldl, hm] using ih _ hstep

/-- Termination and the exactly-once property of the topological sort: for
any graph (cyclic or not) and any duplicate-free resolved-dependency map, the
output is a permutation of the resolved dependencies — each resolved file
path's record appears exactly once, never duplicated and never dropped. -/
theorem topologicalSort_perm (g : List (String × List String))
    (r : List (String × Dependency)) (hr : (r.map Prod.fst).Nodup) :
    (topologicalSort g r).Perm (r.map Prod.snd) := by
  unfold topologicalSort
  have hfin := keysFold_basic g r (g.length + 1) (g.map Prod.fst) ⟨[], [], []⟩
    (sortInv_empty r)
  obtain ⟨hnd, _, _, hsync⟩ := hfin
  rw [leaves_foldl_eq, hsync]
  exact perm_split r hr _ hnd

end DependencyResolver

end CopyDeps

namespace CopyDeps

namespace DependencyResolver

/-! ## Recursive resolution: reachability, error and uniqueness invariants -/

/-- The resolved-import edges out of a file: the file's parsed imports whose
specifiers resolve to a path on disk.  This contains every path the recursive
traversal can enter from the file (the include-external filter in the loop
only skips imports whose resolution would be `none` anyway, because
`resolveImportPath` returns `none` for every external specifier). -/
def importEdges (fs : FileSys) (plugin : LanguagePlugin)
    (workspaceRoot file : String) : List String :=
  match fs file with
  | none => []
  | some content =>
    (plugin.parseImports content file).filterMap
      (fun imp => resolveImportPath fs plugin imp.path file workspaceRoot)

/-- The files reachable from `file` through between 1 and `n` resolved-import
edges: the files at traversal depth 1..n when `file` is at depth 0. -/
def reachWithin (fs : FileSys) (plugin : LanguagePlugin) (workspaceRoot : String) :
    Nat → String → List String
  | 0, _ => []
  | n + 1, file =>
    (importEdges fs plugin workspaceRoot file).flatMap
      (fun q => q :: reachWithin fs plugin workspaceRoot n q)

theorem lookup_none_iff {β : Type} (k : String) (l : List (String × β)) :
    List.lookup k l = none ↔ k ∉ l.map Prod.fst := by
  rw [List.lookup_eq_none_iff]
  constructor
  · intro h hm
    obtain ⟨p, hp, hpk⟩ := List.mem_map.mp hm
    have hne := h p hp
    rw [bne_iff_ne] at hne
    exact hne hpk.symm
  · intro h p hp
    rw [bne_iff_ne]
    intro he
    exact h (he ▸ List.mem_map_of_mem Prod.fst hp)

/-- What a single iteration of the import loop does: the errors and visited
set are untouched, and either nothing is resolved (external skipped, path
unresolvable, already cached, or the plugin returned no dependency record) or
exactly one new entry, keyed by the freshly resolved path, is appended and
scheduled for recursion. -/
theorem processImport_spec (fs : FileSys) (plugin : LanguagePlugin)
    (options : ResolveOptions) (filePath : String) (importInfo : ImportInfo)
    (st : ResolverState) :
    (processImport fs plugin options filePath importInfo st).1.errors = st.errors ∧
    (processImport fs plugin options filePath importInfo st).1.visitedFiles = st.visitedFiles ∧
    (((processImport fs plugin options filePath importInfo st).1.resolvedDependencies
        = st.resolvedDependencies ∧
      (processImport fs plugin options filePath importInfo st).2 = none)
     ∨ (∃ rp dep,
         (processImport fs plugin options filePath importInfo st).2 = some rp ∧
         resolveImportPath fs plugin importInfo.path filePath options.workspaceRoot = some rp ∧
         rp ∉ st.resolvedDependencies.map Prod.fst ∧
         (processImport fs plugin options filePath importInfo st).1.resolvedDependencies
           = st.resolvedDependencies ++ [(rp, dep)])) := by
  unfold processImport
  by_cases hext : (!options.includeExternal && plugin.isExternalDependency importInfo.path) = true
  · simp [hext]
  · rw [if_neg hext]
    have hpath : (if importInfo.fromFile.isNone
        then { importInfo with fromFile := some filePath } else importInfo).path
        = importInfo.path := by
      by_cases hff : importInfo.fromFile.isNone <;> simp [hff]
    simp only [hpath]
    cases hrip : resolveImportPath fs plugin importInfo.path filePath options.workspaceRoot with
    | none => simp
    | some rp =>
      simp only
      by_cases hcached : (st.resolvedDependencies.lookup rp).isSome
      · simp [hcached]
      · rw [if_neg hcached]
        have hnotmem : rp ∉ st.resolvedDependencies.map Prod.fst := by
          rw [← lookup_none_iff]
          cases hx : st.resolvedDependencies.lookup rp with
          | none => rfl
          | some v => rw [hx] at hcached; simp at hcached
        cases hdep : plugin.resolveDependency
            (if importInfo.fromFile.isNone
             then { importInfo with fromFile := some filePath } else importInfo)
            options.workspaceRoot with
        | some dependency =>
          refine ⟨rfl, rfl, Or.inr ⟨rp, dependency, rfl, rfl, hnotmem, rfl⟩⟩
        | none => simp

/-- The combined invariant carried through the recursive traversal, relating
the state before and after: resolved dependencies are append-only with every
new key satisfying `P`, errors are append-only and consist of read-failure
messages for unreadable paths, and key uniqueness is preserved. -/
def RecOut (fs : FileSys) (P : String → Prop) (st st' : ResolverState) : Prop :=
  (∃ d, st'.resolvedDependencies = st.resolvedDependencies ++ d ∧ ∀ e ∈ d, P e.1) ∧
  (∃ er, st'.errors = st.errors ++ er ∧
      ∀ e ∈ er, ∃ p, e = "Cannot read file: " ++ p ∧ fs p = none) ∧
  ((st.resolvedDependencies.map Prod.fst).Nodup →
    (st'.resolvedDependencies.map Prod.fst).Nodup)

theorem RecOut.refl (fs : FileSys) (P : String → Prop) (st : ResolverState) :
    RecOut fs P st st :=
  ⟨⟨[], by simp, by simp⟩, ⟨[], by simp, by simp⟩, id⟩

theorem RecOut.trans {fs : FileSys} {P : String → Prop} {st st₁ st₂ : ResolverState}
    (h1 : RecOut fs P st st₁) (h2 : RecOut fs P st₁ st₂) : RecOut fs P st st₂ := by
  obtain ⟨⟨d1, hd1, hp1⟩, ⟨e1, he1, hq1⟩, hn1⟩ := h1
  obtain ⟨⟨d2, hd2, hp2⟩, ⟨e2, he2, hq2⟩, hn2⟩ := h2
  refine ⟨⟨d1 ++ d2, by rw [hd2, hd1, List.append_assoc], ?_⟩,
          ⟨e1 ++ e2, by rw [he2, he1, List.append_assoc], ?_⟩, fun h => hn2 (hn1 h)⟩
  · intro e he
    rcases List.mem_append.mp he with h | h
    · exact hp1 e h
    · exact hp2 e h
  · intro e he
    rcases List.mem_append.mp he with h | h
    · exact hq1 e h
    · exact hq2 e h

theorem RecOut.mono {fs : FileSys} {P Q : String → Prop} {st st' : ResolverState}
    (hpq : ∀ x, P x → Q x) (h : RecOut fs P st st') : RecOut fs Q st st' := by
  obtain ⟨⟨d, hd, hp⟩, he, hn⟩ := h
  exact ⟨⟨d, hd, fun e hm => hpq _ (hp e hm)⟩, he, hn⟩

/-- A step that neither resolves anything nor reports errors satisfies the
invariant. -/
theorem RecOut.same {fs : FileSys} {P : String → Prop} {st st' : ResolverState}
    (herr : st'.errors = st.errors)
    (hres : st'.resolvedDependencies = st.resolvedDependencies) :
    RecOut fs P st st' :=
  ⟨⟨[], by simp [hres], by simp⟩, ⟨[], by simp [herr], by simp⟩, fun h => hres ▸ h⟩

/-- A step that appends a single fresh resolved entry with key satisfying `P`
satisfies the invariant. -/
theorem RecOut.step {fs : FileSys} {P : String → Prop} {st st' : ResolverState}
    {rp : String} {dep : Dependency}
    (herr : st'.errors = st.errors)
    (happ : st'.resolvedDependencies = st.resolvedDependencies ++ [(rp, dep)])
    (hP : P rp) (hnm : rp ∉ st.resolvedDependencies.map Prod.fst) :
    RecOut fs P st st' := by
  refine ⟨⟨[(rp, dep)], happ, ?_⟩, ⟨[], by simp [herr], by simp⟩, ?_⟩
  · intro e he
    simp only [List.mem_singleton] at he
    subst he
    exact hP
  · intro h
    rw [happ]
    simp [List.nodup_append, h, hnm]

theorem resolveImportsLoop_recOut (fs : FileSys) (plugin : LanguagePlugin)
    (options : ResolveOptions) (filePath : String)
    (recur : String → ResolverState → ResolverState)
    (R : String → String → Prop)
    (hrec : ∀ q st, RecOut fs (R q) st (recur q st)) :
    ∀ (imports : List ImportInfo) (st : ResolverState),
      RecOut fs
        (fun x => ∃ imp ∈ imports, ∃ q,
          resolveImportPath fs plugin imp.path filePath options.workspaceRoot = some q ∧
          (x = q ∨ R q x))
        st (resolveImportsLoop fs plugin options filePath recur imports st) := by
  intro imports
  induction imports with
  | nil =>
    intro st
    exact RecOut.refl fs _ st
  | cons imp rest ih =>
    intro st
    obtain ⟨herr, _, hcases⟩ := processImport_spec fs plugin options filePath imp st
    have hmono : ∀ x, (∃ i ∈ rest, ∃ q,
        resolveImportPath fs plugin i.path filePath options.workspaceRoot = some q ∧
        (x = q ∨ R q x)) →
        (∃ i ∈ imp :: rest, ∃ q,
          resolveImportPath fs plugin i.path filePath options.workspaceRoot = some q ∧
          (x = q ∨ R q x)) := by
      intro x ⟨i, hi, q, hq, hor⟩
      exact ⟨i, List.mem_cons_of_mem _ hi, q, hq, hor⟩
    rcases hcases with ⟨hsame, hnone⟩ | ⟨rp, dep, hsome, hrip, hnm, happ⟩
    · have hgoal : resolveImportsLoop fs plugin options filePath recur (imp :: rest) st
          = resolveImportsLoop fs plugin options filePath recur rest
              (processImport fs plugin options filePath imp st).1 := by
        simp only [resolveImportsLoop]
        rcases hpi : processImport fs plugin options filePath imp st with ⟨st1, rec?⟩
        rw [hpi] at hnone
        simp only at hnone
        subst hnone
        rfl
      rw [hgoal]
      exact RecOut.trans (RecOut.same herr hsame) ((ih _).mono hmono)
    · have hgoal : resolveImportsLoop fs plugin options filePath recur (imp :: rest) st
          = resolveImportsLoop fs plugin options filePath recur rest
              (recur rp (processImport fs plugin options filePath imp st).1) := by
        simp only [resolveImportsLoop]
        rcases hpi : processImport fs plugin options filePath imp st with ⟨st1, rec?⟩
        rw [hpi] at hsome
        simp only at hsome
        subst hsome
        rfl
      rw [hgoal]
      have hPrp : ∃ i ∈ imp :: rest, ∃ q,
          resolveImportPath fs plugin i.path filePath options.workspaceRoot = some q ∧
          (rp = q ∨ R q rp) :=
        ⟨imp, List.mem_cons_self _ _, rp, hrip, Or.inl rfl⟩
      refine RecOut.trans (RecOut.step herr happ hPrp hnm) ?_
      refine RecOut.trans ((hrec rp _).mono ?_) ((ih _).mono hmono)
      intro x hx
      exact ⟨imp, List.mem_cons_self _ _, rp, hrip, Or.inr hx⟩

/-- The recursive traversal only appends state: every new resolved entry is
keyed by a path reachable from the entry file within the remaining depth
budget, every new error is a read-failure message for a genuinely unreadable
path, and resolved keys stay duplicate-free. -/
theorem resolveDependenciesRecursive_recOut (fs : FileSys) (plugin : LanguagePlugin)
    (options : ResolveOptions) :
    ∀ (fuel : Nat) (filePath : String) (st : ResolverState),
      RecOut fs (fun x => x ∈ reachWithin fs plugin options.workspaceRoot fuel filePath)
        st (resolveDependenciesRecursive fs plugin options fuel filePath st) := by
  intro fuel
  induction fuel with
  | zero =>
    intro filePath st
    exact RecOut.refl fs _ st
  | succ fuel ih =>
    intro filePath st
    by_cases hv : filePath ∈ st.visitedFiles
    · simp only [resolveDependenciesRecursive, if_pos hv]
      exact RecOut.refl fs _ st
    · cases hfs : fs filePath with
      | none =>
        simp only [resolveDependenciesRecursive, if_neg hv, hfs]
        refine ⟨⟨[], by simp, by simp⟩,
                ⟨["Cannot read file: " ++ filePath], by simp, ?_⟩, id⟩
        intro e he
        simp only [List.mem_singleton] at he
        exact ⟨filePath, he, hfs⟩
      | some content =>
        simp only [resolveDependenciesRecursive, if_neg hv, hfs]
        refine RecOut.trans (RecOut.same (by split <;> rfl) (by split <;> rfl))
          ((resolveImportsLoop_recOut fs plugin options filePath
            (resolveDependenciesRecursive fs plugin options fuel)
            (fun q x => x ∈ reachWithin fs plugin options.workspaceRoot fuel q)
            (fun q st' => ih q st')
            (plugin.parseImports content filePath) _).mono ?_)
        intro x hx
        obtain ⟨imp, hmem, q, hq, hor⟩ := hx
        show x ∈ reachWithin fs plugin options.workspaceRoot (fuel + 1) filePath
        simp only [reachWithin, importEdges, hfs]
        refine List.mem_flatMap.mpr ⟨q, List.mem_filterMap.mpr ⟨imp, hmem, hq⟩, ?_⟩
        rcases hor with rfl | hr
        · exact List.mem_cons_self _ _
        · exact List.mem_cons_of_mem _ hr

end DependencyResolver

end CopyDeps

namespace CopyDeps

namespace DependencyResolver

/-! ## Topological sort: ordering on acyclic graphs (dependencies first) -/

/-- The adjacency-set targets of a node in the accumulated graph. -/
def succOf (g : List (String × List String)) (p : String) : List String :=
  (g.lookup p).getD []

/-- A depends-on edge of the accumulated file-level dependency graph. -/
def Edge (g : List (String × List String)) (a b : String) : Prop :=
  b ∈ succOf g a

/-- Acyclicity of the accumulated graph: no node reaches itself through one
or more edges. -/
def Acyclic (g : List (String × List String)) : Prop :=
  ∀ p, ¬ Relation.TransGen (Edge g) p p

/-- A finite graph with a rank function strictly decreasing along edges is
acyclic. -/
theorem acyclic_of_rank (g : List (String × List String)) (rank : String → Nat)
    (h : ∀ x y, Edge g x y → rank y < rank x) : Acyclic g := by
  intro p hp
  have hlt : ∀ x y, Relation.TransGen (Edge g) x y → rank y < rank x := by
    intro x y hxy
    induction hxy with
    | single h1 => exact h _ _ h1
    | tail _ h1 ih => exact lt_trans (h _ _ h1) ih
  exact lt_irrefl _ (hlt p p hp)

/-- `b` occurs strictly before some occurrence of `a` in `l`. -/
def Before (b a : String) (l : List String) : Prop :=
  ∃ u v, l = u ++ b :: v ∧ a ∈ v

theorem Before.append_right {b a : String} {l : List String} (e : List String)
    (h : Before b a l) : Before b a (l ++ e) := by
  obtain ⟨u, v, rfl, hav⟩ := h
  exact ⟨u, v ++ e, by simp, List.mem_append_left _ hav⟩

/-- The ordering invariant of the traversal: every done node has all its
successors done and emitted strictly before it. -/
def EdgeInv (g : List (String × List String)) (s : SortState) : Prop :=
  ∀ a ∈ s.visited, ∀ b, Edge g a b → b ∈ s.visited ∧ Before b a s.visited

/-- Number of graph keys not yet marked done or in progress; the recursion
depth of the traversal is bounded by it. -/
def freeCount (g : List (String × List String)) (s : SortState) : Nat :=
  ((g.map Prod.fst).filter
    (fun k => decide (k ∉ s.visited) && decide (k ∉ s.visiting))).length

/-- In a chain, every member reaches the last element. -/
theorem chain_reaches_last {R : String → String → Prop} :
    ∀ (l : List String) (b q : String), List.Chain' R l → b ∈ l →
      l.getLast? = some q → Relation.ReflTransGen R b q := by
  intro l
  induction l with
  | nil => intro b q _ hb; cases hb
  | cons x t ih =>
    intro b q hchain hb hlast
    cases t with
    | nil =>
      simp only [List.mem_singleton] at hb
      simp only [List.getLast?_singleton, Option.some_inj] at hlast
      subst hb; subst hlast
      exact Relation.ReflTransGen.refl
    | cons y t' =>
      rw [List.getLast?_cons_cons] at hlast
      have hxy : R x y := (List.chain'_cons.mp hchain).1
      have hct : List.Chain' R (y :: t') := (List.chain'_cons.mp hchain).2
      rcases List.mem_cons.mp hb with rfl | hb'
      · exact (Relation.ReflTransGen.single hxy).trans
          (ih y q hct (List.mem_cons_self _ _) hlast)
      · exact ih b q hct hb' hlast

/-- No edge can point from the next node back into the in-progress stack of
an acyclic graph: the stack is an edge chain whose last element has an edge
to the next node, so a back edge would close a cycle. -/
theorem no_back_edge {g : List (String × List String)} (hacyc : Acyclic g)
    {visiting : List String} {p b : String}
    (hchain : List.Chain' (Edge g) visiting)
    (hlast : ∀ q, visiting.getLast? = some q → Edge g q p)
    (hb : b ∈ visiting) (hedge : Edge g p b) : False := by
  have hne : visiting ≠ [] := fun h => by subst h; cases hb
  obtain ⟨q, hq⟩ := Option.isSome_iff_exists.mp (List.getLast?_isSome.mpr hne)
  have hreach : Relation.ReflTransGen (Edge g) b q :=
    chain_reaches_last visiting b q hchain hb hq
  have hcycle : Relation.TransGen (Edge g) b b :=
    (Relation.TransGen.trans_right hreach
      (Relation.TransGen.single (hlast q hq))).trans (Relation.TransGen.single hedge)
  exact hacyc b hcycle

theorem freeCount_le (g : List (String × List String)) (s : SortState) :
    freeCount g s ≤ g.length := by
  unfold freeCount
  calc ((g.map Prod.fst).filter _).length
      ≤ (g.map Prod.fst).length := (List.filter_sublist _).length_le
    _ = g.length := List.length_map _ _

theorem freeCount_mono (g : List (String × List String)) {s s' : SortState}
    (h : ∀ k, k ∉ s'.visited → k ∉ s'.visiting → (k ∉ s.visited ∧ k ∉ s.visiting)) :
    freeCount g s' ≤ freeCount g s := by
  unfold freeCount
  refine (List.monotone_filter_right _ ?_).length_le
  intro k hk
  simp only [Bool.and_eq_true, decide_eq_true_eq] at hk ⊢
  exact h k hk.1 hk.2

theorem freeCount_push (g : List (String × List String))
    (hg : (g.map Prod.fst).Nodup) (s : SortState) (p : String)
    (hpk : p ∈ g.map Prod.fst) (h1 : p ∉ s.visited) (h2 : p ∉ s.visiting) :
    freeCount g { s with visiting := s.visiting ++ [p] } + 1 = freeCount g s := by
  unfold freeCount
  have hsplit : (g.map Prod.fst).filter
      (fun k => decide (k ∉ ({ s with visiting := s.visiting ++ [p] } : SortState).visited)
        && decide (k ∉ ({ s with visiting := s.visiting ++ [p] } : SortState).visiting))
      = ((g.map Prod.fst).filter
          (fun k => decide (k ∉ s.visited) && decide (k ∉ s.visiting))).filter
          (fun k => k != p) := by
    rw [List.filter_filter]
    apply List.filter_congr
    intro k _
    by_cases hk : k = p
    · subst hk
      simp [h1, h2]
    · simp [List.mem_append, hk]
  rw [hsplit]
  have hmem : p ∈ (g.map Prod.fst).filter
      (fun k => decide (k ∉ s.visited) && decide (k ∉ s.visiting)) := by
    rw [List.mem_filter]
    exact ⟨hpk, by simp [h1, h2]⟩
  have hnd : ((g.map Prod.fst).filter
      (fun k => decide (k ∉ s.visited) && decide (k ∉ s.visiting))).Nodup :=
    hg.filter _
  rw [← hnd.erase_eq_filter p, List.length_erase_of_mem hmem]
  have hpos : 0 < ((g.map Prod.fst).filter
      (fun k => decide (k ∉ s.visited) && decide (k ∉ s.visiting))).length :=
    List.length_pos_of_mem hmem
  omega

end DependencyResolver

end CopyDeps

namespace CopyDeps

namespace DependencyResolver

/-- The depth-first `visit` helper on an acyclic graph: with enough fuel, the
visited node lands in the done set and the ordering invariant (successors
done and emitted earlier) is maintained throughout. -/
theorem visitSort_strong (g : List (String × List String))
    (r : List (String × Dependency)) (hgk : (g.map Prod.fst).Nodup)
    (hacyc : Acyclic g) :
    ∀ fuel p s,
      EdgeInv g s →
      List.Chain' (Edge g) s.visiting →
      (∀ q, s.visiting.getLast? = some q → Edge g q p) →
      freeCount g s < fuel →
      (visitSort g r fuel p s).visiting = s.visiting ∧
      (∃ d, (visitSort g r fuel p s).visited = s.visited ++ d) ∧
      EdgeInv g (visitSort g r fuel p s) ∧
      (p ∈ (visitSort g r fuel p s).visited ∨ p ∈ s.visiting) ∧
      freeCount g (visitSort g r fuel p s) ≤ freeCount g s := by
  intro fuel
  induction fuel with
  | zero =>
    intro p s _ _ _ hfree
    exact absurd hfree (Nat.not_lt_zero _)
  | succ fuel ih =>
    intro p s hinv hchain hlast hfree
    by_cases hvtg : p ∈ s.visiting
    · have hstop : visitSort g r (fuel + 1) p s = s := by
        simp [visitSort, hvtg]
      rw [hstop]
      exact ⟨rfl, ⟨[], by simp⟩, hinv, Or.inr hvtg, le_refl _⟩
    · by_cases hvtd : p ∈ s.visited
      · have hstop : visitSort g r (fuel + 1) p s = s := by
          simp [visitSort, hvtg, hvtd]
        rw [hstop]
        exact ⟨rfl, ⟨[], by simp⟩, hinv, Or.inl hvtd, le_refl _⟩
      · have hchain1 : List.Chain' (Edge g) (s.visiting ++ [p]) := by
          rw [List.chain'_append]
          refine ⟨hchain, List.chain'_singleton _, ?_⟩
          intro x hx y hy
          simp only [List.head?_cons, Option.mem_def, Option.some_inj] at hy
          subst hy
          exact hlast x hx
        have hfold : ∀ (deps : List String), (∀ d ∈ deps, Edge g p d) →
            ∀ (s1 : SortState),
            s1.visiting = s.visiting ++ [p] →
            EdgeInv g s1 →
            freeCount g s1 < fuel →
            ((deps.foldl (fun acc dep => visitSort g r fuel dep acc) s1).visiting
                = s.visiting ++ [p] ∧
             (∃ dd, (deps.foldl (fun acc dep => visitSort g r fuel dep acc) s1).visited
                = s1.visited ++ dd) ∧
             EdgeInv g (deps.foldl (fun acc dep => visitSort g r fuel dep acc) s1) ∧
             (∀ d ∈ deps,
               d ∈ (deps.foldl (fun acc dep => visitSort g r fuel dep acc) s1).visited
               ∨ d ∈ s.visiting ++ [p]) ∧
             freeCount g (deps.foldl (fun acc dep => visitSort g r fuel dep acc) s1)
               ≤ freeCount g s1) := by
          intro deps
          induction deps with
          | nil =>
            intro _ s1 hv1 hi1 _
            exact ⟨hv1, ⟨[], by simp⟩, hi1, by simp, le_refl _⟩
          | cons d rest ihd =>
            intro hdeps s1 hv1 hi1 hf1
            have hlast1 : ∀ q, s1.visiting.getLast? = some q → Edge g q d := by
              intro q hq
              rw [hv1, List.getLast?_concat] at hq
              cases hq
              exact hdeps d (List.mem_cons_self _ _)
            have hchain1' : List.Chain' (Edge g) s1.visiting := by
              rw [hv1]; exact hchain1
            obtain ⟨hva, ⟨da, hda⟩, hia, hma, hfa⟩ :=
              ih d s1 hi1 hchain1' hlast1 hf1
            obtain ⟨hvb, ⟨db, hdb⟩, hib, hmb, hfb⟩ :=
              ihd (fun x hx => hdeps x (List.mem_cons_of_mem _ hx))
                (visitSort g r fuel d s1) (by rw [hva, hv1]) hia
                (lt_of_le_of_lt hfa hf1)
            refine ⟨by simpa [List.foldl] using hvb,
                    ⟨da ++ db, ?_⟩,
                    by simpa [List.foldl] using hib, ?_, ?_⟩
            · simp only [List.foldl]
              rw [hdb, hda, List.append_assoc]
            · intro x hx
              rcases List.mem_cons.mp hx with rfl | hx'
              · rcases hma with hm | hm
                · left
                  simp only [List.foldl]
                  rw [hdb]
                  exact List.mem_append_left _ hm
                · right
                  rw [← hv1]; exact hm
              · simpa [List.foldl] using hmb x hx'
            · calc freeCount g ((d :: rest).foldl (fun acc dep => visitSort g r fuel dep acc) s1)
                  = freeCount g (rest.foldl (fun acc dep => visitSort g r fuel dep acc)
                      (visitSort g r fuel d s1)) := by simp [List.foldl]
                _ ≤ freeCount g (visitSort g r fuel d s1) := hfb
                _ ≤ freeCount g s1 := hfa
        have hinv1 : EdgeInv g { s with visiting := s.visiting ++ [p] } := hinv
        have hunf : visitSort g r (fuel + 1) p s =
            (let s1 : SortState := { s with visiting := s.visiting ++ [p] }
             let s2 : SortState :=
               match g.lookup p with
               | some deps => deps.foldl (fun acc dep => visitSort g r fuel dep acc) s1
               | none => s1
             let s3 : SortState :=
               { s2 with visiting := s2.visiting.erase p,
                         visited := s2.visited ++ [p] }
             match r.lookup p with
             | some dependency => { s3 with sorted := s3.sorted ++ [dependency] }
             | none => s3) := by
          simp only [visitSort, if_neg hvtg, if_neg hvtd]
        have key : ∀ s2 : SortState,
            s2.visiting = s.visiting ++ [p] →
            (∃ dd, s2.visited = s.visited ++ dd) →
            EdgeInv g s2 →
            (∀ b, Edge g p b → b ∈ s2.visited ∨ b ∈ s.visiting ++ [p]) →
            freeCount g s2 ≤ freeCount g s →
            ∀ srt : List Dependency,
            (({ sorted := srt, visited := s2.visited ++ [p],
                                         visiting := s2.visiting.erase p } : SortState).visiting = s.visiting ∧
             (∃ d, ({ sorted := srt, visited := s2.visited ++ [p],
                                     visiting := s2.visiting.erase p } : SortState).visited = s.visited ++ d) ∧
             EdgeInv g ({ sorted := srt, visited := s2.visited ++ [p],
                                         visiting := s2.visiting.erase p } : SortState) ∧
             (p ∈ ({ sorted := srt, visited := s2.visited ++ [p],
                                    visiting := s2.visiting.erase p } : SortState).visited ∨ p ∈ s.visiting) ∧
             freeCount g ({ sorted := srt, visited := s2.visited ++ [p],
                                           visiting := s2.visiting.erase p } : SortState) ≤ freeCount g s) := by
          intro s2 hv2 hvd2 hi2 hsucc hf2 srt
          have herase : s2.visiting.erase p = s.visiting := by
            rw [hv2, List.erase_append_right _ hvtg]
            simp
          obtain ⟨dd, hdd⟩ := hvd2
          refine ⟨herase,
                  ⟨dd ++ [p], by
                    show s2.visited ++ [p] = s.visited ++ (dd ++ [p])
                    rw [hdd, List.append_assoc]⟩,
                  ?_, Or.inl (by show p ∈ s2.visited ++ [p]; simp), ?_⟩
          · intro a ha b hb
            have ha2 : a ∈ s2.visited ++ [p] := ha
            show b ∈ s2.visited ++ [p] ∧ Before b a (s2.visited ++ [p])
            rcases List.mem_append.mp ha2 with ha' | ha'
            · obtain ⟨hbm, hbo⟩ := hi2 a ha' b hb
              exact ⟨List.mem_append_left _ hbm, hbo.append_right _⟩
            · simp only [List.mem_singleton] at ha'
              rw [ha'] at hb ⊢
              rcases hsucc b hb with hbm | hbm
              · obtain ⟨u, v, hsplit⟩ := List.append_of_mem hbm
                refine ⟨List.mem_append_left _ hbm, u, v ++ [p], ?_, by simp⟩
                rw [hsplit]
                simp
              · rcases List.mem_append.mp hbm with hbv | hbp
                · exact absurd hb (fun he => no_back_edge hacyc hchain hlast hbv he)
                · simp only [List.mem_singleton] at hbp
                  rw [hbp] at hb
                  exact absurd (Relation.TransGen.single hb) (hacyc _)
          · refine le_trans (freeCount_mono g ?_) hf2
            intro k hk1 hk2
            have hk1' : k ∉ s2.visited ++ [p] := hk1
            have hk2' : k ∉ s.visiting := by
              intro hkv
              exact hk2 (by show k ∈ s2.visiting.erase p; rw [herase]; exact hkv)
            have hknp : k ≠ p := by
              intro he
              rw [he] at hk1'
              exact hk1' (List.mem_append_right _ (by simp))
            refine ⟨fun hkv => hk1' (List.mem_append_left _ hkv), ?_⟩
            rw [hv2]
            intro hkv
            rcases List.mem_append.mp hkv with h | h
            · exact hk2' h
            · simp only [List.mem_singleton] at h
              exact hknp h
        rw [hunf]
        cases hlk : g.lookup p with
        | some deps =>
          have hpk : p ∈ g.map Prod.fst := by
            by_contra hnm
            have hnone := (lookup_none_iff p g).mpr hnm
            rw [hlk] at hnone
            cases hnone
          have hfp := freeCount_push g hgk s p hpk hvtd hvtg
          have hf1 : freeCount g ({ s with visiting := s.visiting ++ [p] } : SortState)
              < fuel := by omega
          have hdeps : ∀ d ∈ deps, Edge g p d := by
            intro d hd
            unfold Edge succOf
            rw [hlk]
            simpa using hd
          obtain ⟨hv2, hvd2, hi2, hm2, hf2⟩ := hfold deps hdeps _ rfl hinv1 hf1
          have hsucc : ∀ b, Edge g p b →
              b ∈ (deps.foldl (fun acc dep => visitSort g r fuel dep acc)
                ({ s with visiting := s.visiting ++ [p] } : SortState)).visited
              ∨ b ∈ s.visiting ++ [p] := by
            intro b hb
            unfold Edge succOf at hb
            rw [hlk] at hb
            exact hm2 b (by simpa using hb)
          have hf2' : freeCount g (deps.foldl (fun acc dep => visitSort g r fuel dep acc)
              ({ s with visiting := s.visiting ++ [p] } : SortState)) ≤ freeCount g s := by
            calc freeCount g _ ≤ freeCount g ({ s with visiting := s.visiting ++ [p] } :
                  SortState) := hf2
              _ ≤ freeCount g s := by omega
          simp only [hlk]
          cases hrl : r.lookup p with
          | some dep =>
            simp only [hrl]
            exact key _ hv2 hvd2 hi2 hsucc hf2' _
          | none =>
            simp only [hrl]
            exact key _ hv2 hvd2 hi2 hsucc hf2' _
        | none =>
          have hsucc : ∀ b, Edge g p b →
              b ∈ ({ s with visiting := s.visiting ++ [p] } : SortState).visited
              ∨ b ∈ s.visiting ++ [p] := by
            intro b hb
            unfold Edge succOf at hb
            rw [hlk] at hb
            simp at hb
          have hf1le : freeCount g ({ s with visiting := s.visiting ++ [p] } : SortState)
              ≤ freeCount g s := by
            apply freeCount_mono
            intro k hk1 hk2
            exact ⟨hk1, fun hkv => hk2 (List.mem_append_left _ hkv)⟩
          simp only [hlk]
          cases hrl : r.lookup p with
          | some dep =>
            simp only [hrl]
            exact key _ rfl ⟨[], by simp⟩ hinv1 hsucc hf1le _
          | none =>
            simp only [hrl]
            exact key _ rfl ⟨[], by simp⟩ hinv1 hsucc hf1le _

end DependencyResolver

end CopyDeps

namespace CopyDeps

namespace DependencyResolver

/-- After the top-level loop of the topological sort, every graph key is done
and the ordering invariant holds. -/
theorem keysFold_strong (g : List (String × List String))
    (r : List (String × Dependency)) (hgk : (g.map Prod.fst).Nodup)
    (hacyc : Acyclic g) :
    ∀ (ks : List String) (s : SortState),
      EdgeInv g s → s.visiting = [] →
      ((ks.foldl (fun acc filePath => if filePath ∈ acc.visited then acc
                   else visitSort g r (g.length + 1) filePath acc) s).visiting = [] ∧
       (∃ d, (ks.foldl (fun acc filePath => if filePath ∈ acc.visited then acc
                   else visitSort g r (g.length + 1) filePath acc) s).visited
          = s.visited ++ d) ∧
       EdgeInv g (ks.foldl (fun acc filePath => if filePath ∈ acc.visited then acc
                   else visitSort g r (g.length + 1) filePath acc) s) ∧
       (∀ k ∈ ks, k ∈ (ks.foldl (fun acc filePath => if filePath ∈ acc.visited then acc
                   else visitSort g r (g.length + 1) filePath acc) s).visited)) := by
  intro ks
  induction ks with
  | nil =>
    intro s hi hv
    exact ⟨hv, ⟨[], by simp⟩, hi, by simp⟩
  | cons k rest ih =>
    intro s hi hv
    by_cases hm : k ∈ s.visited
    · have hstep : (k :: rest).foldl (fun acc filePath => if filePath ∈ acc.visited then acc
          else visitSort g r (g.length + 1) filePath acc) s
          = rest.foldl (fun acc filePath => if filePath ∈ acc.visited then acc
              else visitSort g r (g.length + 1) filePath acc) s := by
        simp only [List.foldl]
        rw [if_pos hm]
      rw [hstep]
      obtain ⟨hv2, ⟨d, hd⟩, hi2, hmem⟩ := ih s hi hv
      refine ⟨hv2, ⟨d, hd⟩, hi2, ?_⟩
      intro x hx
      rcases List.mem_cons.mp hx with rfl | hx'
      · rw [hd]
        exact List.mem_append_left _ hm
      · exact hmem x hx'
    · have hfuel : freeCount g s < g.length + 1 :=
        Nat.lt_succ_of_le (freeCount_le g s)
      have hchain : List.Chain' (Edge g) s.visiting := by
        rw [hv]; exact List.chain'_nil
      have hlast : ∀ q, s.visiting.getLast? = some q → Edge g q k := by
        intro q hq
        rw [hv] at hq
        cases hq
      obtain ⟨hv1, ⟨d1, hd1⟩, hi1, hk1, _⟩ :=
        visitSort_strong g r hgk hacyc (g.length + 1) k s hi hchain hlast hfuel
      have hk1' : k ∈ (visitSort g r (g.length + 1) k s).visited := by
        rcases hk1 with h | h
        · exact h
        · rw [hv] at h; cases h
      obtain ⟨hv2, ⟨d2, hd2⟩, hi2, hmem2⟩ :=
        ih (visitSort g r (g.length + 1) k s) hi1 (by rw [hv1, hv])
      have hstep : (k :: rest).foldl (fun acc filePath => if filePath ∈ acc.visited then acc
          else visitSort g r (g.length + 1) filePath acc) s
          = rest.foldl (fun acc filePath => if filePath ∈ acc.visited then acc
              else visitSort g r (g.length + 1) filePath acc)
              (visitSort g r (g.length + 1) k s) := by
        simp only [List.foldl]
        rw [if_neg hm]
      rw [hstep]
      refine ⟨hv2, ⟨d1 ++ d2, by rw [hd2, hd1, List.append_assoc]⟩, hi2, ?_⟩
      intro x hx
      rcases List.mem_cons.mp hx with rfl | hx'
      · rw [hd2]
        exact List.mem_append_left _ hk1'
      · exact hmem2 x hx'

/-- The ordering contract of the topological sort on acyclic graphs: along
any depends-on edge `a → b` whose endpoints both have resolved dependency
records, `b`'s record is emitted strictly before `a`'s. -/
theorem topologicalSort_ordering (g : List (String × List String))
    (r : List (String × Dependency)) (hgk : (g.map Prod.fst).Nodup)
    (hacyc : Acyclic g) (a b : String) (hedge : Edge g a b)
    (da db : Dependency) (hda : r.lookup a = some da) (hdb : r.lookup b = some db) :
    ∃ u v, topologicalSort g r = u ++ db :: v ∧ da ∈ v := by
  have hbasic := keysFold_basic g r (g.length + 1) (g.map Prod.fst) ⟨[], [], []⟩
    (sortInv_empty r)
  have hstrong := keysFold_strong g r hgk hacyc (g.map Prod.fst) ⟨[], [], []⟩
    (by intro x hx; cases hx) rfl
  obtain ⟨_, _, hi, hmem⟩ := hstrong
  obtain ⟨_, _, _, hsync⟩ := hbasic
  have hak : a ∈ g.map Prod.fst := by
    by_contra hnm
    have hnone := (lookup_none_iff a g).mpr hnm
    unfold Edge succOf at hedge
    rw [hnone] at hedge
    cases hedge
  have hav := hmem a hak
  obtain ⟨hbv, u', v', hsplit, hav'⟩ := hi a hav b hedge
  have hsorted : ((g.map Prod.fst).foldl
      (fun acc filePath => if filePath ∈ acc.visited then acc
        else visitSort g r (g.length + 1) filePath acc) ⟨[], [], []⟩).sorted
      = List.filterMap (fun q => r.lookup q) u' ++ db ::
        List.filterMap (fun q => r.lookup q) v' := by
    rw [hsync, hsplit, List.filterMap_append, List.filterMap_cons, hdb]
  refine ⟨List.filterMap (fun q => r.lookup q) u',
          List.filterMap (fun q => r.lookup q) v' ++
            (r.filter (fun e => decide (e.1 ∉
              ((g.map Prod.fst).foldl
                (fun acc filePath => if filePath ∈ acc.visited then acc
                  else visitSort g r (g.length + 1) filePath acc)
                ⟨[], [], []⟩).visited))).map Prod.snd, ?_, ?_⟩
  · unfold topologicalSort
    rw [leaves_foldl_eq, hsorted]
    simp [List.append_assoc]
  · exact List.mem_append_left _
      (List.mem_filterMap.mpr ⟨a, hav', hda⟩)

end DependencyResolver

end CopyDeps

namespace CopyDeps

/-- Stable insertion into a sorted list: the new element goes before the
first element it compares less-or-equal to. -/
def insertSorted {α : Type} (le : α → α → Bool) (x : α) : List α → List α
  | [] => [x]
  | y :: ys => if le x y then x :: y :: ys else y :: insertSorted le x ys

/-- Model of the JavaScript `Array.prototype.sort` with an ascending
comparator: a stable sort (insertion sort; `Array.prototype.sort` is
specified to be stable, and with a total ascending comparator every stable
sort produces the same list). -/
def stableSort {α : Type} (le : α → α → Bool) : List α → List α
  | [] => []
  | x :: xs => insertSorted le x (stableSort le xs)

theorem insertSorted_perm {α : Type} (le : α → α → Bool) (x : α) :
    ∀ l : List α, (insertSorted le x l).Perm (x :: l) := by
  intro l
  induction l with
  | nil => simp [insertSorted]
  | cons y ys ih =>
    by_cases h : le x y
    · simp [insertSorted, h]
    · simp only [insertSorted, h, if_false, Bool.false_eq_true]
      exact (ih.cons y).trans (List.Perm.swap x y ys)

theorem stableSort_perm {α : Type} (le : α → α → Bool) :
    ∀ l : List α, (stableSort le l).Perm l := by
  intro l
  induction l with
  | nil => simp [stableSort]
  | cons x xs ih =>
    exact (insertSorted_perm le x (stableSort le xs)).trans (ih.cons x)

theorem insertSorted_sorted {α : Type} (le : α → α → Bool)
    (htrans : ∀ a b c, le a b = true → le b c = true → le a c = true)
    (htot : ∀ a b, (le a b || le b a) = true) (x : α) :
    ∀ l : List α, l.Pairwise (fun a b => le a b = true) →
      (insertSorted le x l).Pairwise (fun a b => le a b = true) := by
  intro l
  induction l with
  | nil => intro _; simp [insertSorted]
  | cons y ys ih =>
    intro hl
    rw [List.pairwise_cons] at hl
    obtain ⟨hy, hys⟩ := hl
    by_cases h : le x y
    · simp only [insertSorted, h, if_true]
      rw [List.pairwise_cons]
      refine ⟨?_, by rw [List.pairwise_cons]; exact ⟨hy, hys⟩⟩
      intro z hz
      rcases List.mem_cons.mp hz with rfl | hz'
      · exact h
      · exact htrans x y z h (hy z hz')
    · simp only [insertSorted, h, if_false, Bool.false_eq_true]
      rw [List.pairwise_cons]
      constructor
      · intro z hz
        have hz2 : z ∈ x :: ys := (insertSorted_perm le x ys).mem_iff.mp hz
        rcases List.mem_cons.mp hz2 with hzx | hz'
        · have hxy := htot x y
          rw [Bool.or_eq_true] at hxy
          rcases hxy with h' | h'
          · exact absurd h' h
          · rw [hzx]; exact h'
        · exact hy z hz'
      · exact ih hys

theorem stableSort_sorted {α : Type} (le : α → α → Bool)
    (htrans : ∀ a b c, le a b = true → le b c = true → le a c = true)
    (htot : ∀ a b, (le a b || le b a) = true) :
    ∀ l : List α, (stableSort le l).Pairwise (fun a b => le a b = true) := by
  intro l
  induction l with
  | nil => simp [stableSort]
  | cons x xs ih => exact insertSorted_sorted le htrans htot x _ ih

theorem stableSort_head_le {α : Type} (le : α → α → Bool)
    (htrans : ∀ a b c, le a b = true → le b c = true → le a c = true)
    (htot : ∀ a b, (le a b || le b a) = true) (l : List α) (x : α) (xs : List α)
    (h : stableSort le l = x :: xs) : ∀ y ∈ l, le x y = true := by
  have hp := stableSort_sorted le htrans htot l
  rw [h, List.pairwise_cons] at hp
  intro y hy
  have hy2 : y ∈ x :: xs := by
    rw [← h]
    exact (stableSort_perm le l).mem_iff.mpr hy
  rcases List.mem_cons.mp hy2 with rfl | hy'
  · have := htot y y
    rw [Bool.or_eq_true] at this
    rcases this with h' | h' <;> exact h'
  · exact hp.1 y hy'

/-! ## Model of the TypeScript AST (external collaborator: the ts parser)

`ts.createSourceFile` is error-tolerant and total; it is modelled as an
abstract parameter `parse : String → SourceAst` producing a flat arena of
nodes in document (depth-first preorder) order, the `SourceFile` node first.
Node identity (the `===` checks of the source) is modelled by the node id
`nid`; parent links carry the `node.parent` references, and a declaration
kind stores the id of its name identifier child, so that
`parent.name === node` becomes a comparison of ids.  The recursive
`ts.forEachChild` walks of the source visit exactly the arena nodes whose
ancestor chain satisfies the walk's pruning condition, in arena order. -/

inductive TsKind where
  | sourceFile
  | functionDecl (nameId : Option Nat)
  | classDecl (nameId : Option Nat)
  | interfaceDecl (nameId : Nat)
  | typeAliasDecl (nameId : Nat)
  | enumDecl (nameId : Nat)
  | moduleDecl
  | variableStatement
  | variableDeclList
  | variableDeclaration (nameId : Option Nat)
  | parameter (nameId : Option Nat)
  | methodDecl
  | propertyDecl
  | getAccessor
  | setAccessor
  | ctorDecl
  | arrowFunction
  | propertyAccess (nameId : Nat)
  | propertyAssignment (nameId : Nat)
  | identifier (text : String)
  | statementOther
  | other
deriving DecidableEq, Repr

/-- One AST node: id, kind, the `getStart()`/`getEnd()` offsets, and the id
of the parent node (`none` for the `SourceFile`). -/
structure TsNode where
  nid : Nat
  kind : TsKind
  startPos : Nat
  endPos : Nat
  parent : Option Nat
deriving DecidableEq, Repr

/-- A parsed source file: its nodes in document (preorder) order; the
`SourceFile` node comes first. -/
structure SourceAst where
  nodes : List TsNode
deriving DecidableEq, Repr

namespace SourceAst

def byId (ast : SourceAst) (i : Nat) : Option TsNode :=
  ast.nodes.find? (fun n => n.nid = i)

/-- The id of the `SourceFile` node. -/
def rootId (ast : SourceAst) : Nat :=
  ((ast.nodes.head?).map TsNode.nid).getD 0

/-- The `sourceFile.statements` list: the children of the root, in order. -/
def statements (ast : SourceAst) : List TsNode :=
  ast.nodes.filter (fun n => n.parent = some ast.rootId)

/-- The chain of ancestors starting from the given parent link, nearest
first.  The fuel only bounds malformed parent cycles; in a well-formed arena
parent ids strictly decrease, so `rootId`-many steps always suffice. -/
def ancestorsFrom (ast : SourceAst) : Nat → Option Nat → List TsNode
  | _, none => []
  | 0, some _ => []
  | fuel + 1, some j =>
    match ast.byId j with
    | none => []
    | some pn => pn :: ancestorsFrom ast fuel pn.parent

/-- The ancestors of a node, nearest first (model of following
`node.parent`). -/
def ancestorsOf (ast : SourceAst) (n : TsNode) : List TsNode :=
  ancestorsFrom ast (ast.nodes.length) n.parent

/-- The parent node (model of `node.parent`). -/
def parentOf (ast : SourceAst) (n : TsNode) : Option TsNode :=
  n.parent.bind ast.byId

/-- Whether `n` lies in the subtree rooted at `w` (including `w` itself). -/
def inSubtreeOf (ast : SourceAst) (w n : TsNode) : Bool :=
  n.nid = w.nid || (ast.ancestorsOf n).any (fun m => m.nid = w.nid)

/-- The chain from `n` up to and including the walk root `w` (meaningful
when `n` is in `w`'s subtree). -/
def chainWithin (ast : SourceAst) (w n : TsNode) : List TsNode :=
  if n.nid = w.nid then [n]
  else n :: ((ast.ancestorsOf n).takeWhile (fun m => m.nid ≠ w.nid)) ++ [w]

end SourceAst

namespace TsPlugin

/-- Whether a span overlaps (is not disjoint from) the selection span: the
pruning test `nodeStart > endPos || nodeEnd < startPos` of the recursive
walks, negated. -/
def overlaps (spanStart spanEnd : Nat) (n : TsNode) : Bool :=
  !(decide (n.startPos > spanEnd) || decide (n.endPos < spanStart))

/-- The nodes visited by `collectContainingDeclarations`, which starts at the
root's children and prunes subtrees disjoint from the selection: every node
except the root whose whole ancestor chain below the root overlaps the
selection. -/
def visitedByWalk (ast : SourceAst) (spanStart spanEnd : Nat) (n : TsNode) : Bool :=
  decide (n.nid ≠ ast.rootId)
    && (n :: ast.ancestorsOf n).all
         (fun m => decide (m.nid = ast.rootId) || overlaps spanStart spanEnd m)

/-- `isTopLevelDeclaration` from `extractFragment`. -/
def isTopLevelDeclarationKind : TsKind → Bool
  | .functionDecl _ => true
  | .classDecl _ => true
  | .variableStatement => true
  | .interfaceDecl _ => true
  | .typeAliasDecl _ => true
  | .enumDecl _ => true
  | .moduleDecl => true
  | _ => false

/-- `isDeclaration` from `extractFragment` (adds class-member kinds). -/
def isDeclarationKind (k : TsKind) : Bool :=
  isTopLevelDeclarationKind k ||
    (match k with
     | .methodDecl => true
     | .propertyDecl => true
     | .getAccessor => true
     | .setAccessor => true
     | .ctorDecl => true
     | _ => false)

/-- `ts.isStatement`. -/
def isStatementKind : TsKind → Bool
  | .functionDecl _ => true
  | .classDecl _ => true
  | .interfaceDecl _ => true
  | .typeAliasDecl _ => true
  | .enumDecl _ => true
  | .moduleDecl => true
  | .variableStatement => true
  | .statementOther => true
  | _ => false

/-- The start offsets of every line of the content. -/
def lineStarts (content : String) : List Nat :=
  let ls := jsLines content
  (List.range ls.length).map
    (fun i => (ls.take i).foldl (fun a l => a + l.data.length + 1) 0)

/-- Model of `sourceFile.getPositionOfLineAndCharacter`: `none` models the
throw on an out-of-range line, or on a column running past the start of the
next line (the internal assertion). -/
def tsPositionOf (content : String) (line character : Nat) : Option Nat :=
  let starts := lineStarts content
  match starts.get? line with
  | none => none
  | some st =>
    let res := st + character
    match starts.get? (line + 1) with
    | some next => if res < next then some res else none
    | none => some res

/-- The manual offset computation of the catch branch of `extractFragment`
(`getOffset`-style loop over the lines). -/
def manualOffset (content : String) (line character : Nat) : Nat :=
  ((jsLines content).take line).foldl (fun a l => a + l.data.length + 1) 0 + character

/-- Model of `content.substring(a, b)`. -/
def substringOf (content : String) (a b : Nat) : String :=
  String.mk ((content.data.drop a).take (b - a))

/-- The literal-selection fallback used throughout `extractFragment`: the
selected text snapped to whole lines from the range's start line to its end
line. -/
def lineSnappedFragment (content : String) (range : Range) : CodeFragment :=
  { content := jsJoinLines (((jsLines content).drop range.start.line).take
      (range.stop.line + 1 - range.start.line)),
    filePath := "",
    relativePath := none,
    range := some range,
    type := .selection,
    language := "typescript" }

/-- `getNodeType` of the TypeScript plugin. -/
def getNodeType (k : TsKind) (requestedType : FragmentType) : FragmentType :=
  match k with
  | .classDecl _ => .classF
  | .functionDecl _ => .functionF
  | .arrowFunction => .functionF
  | .methodDecl => .method
  | _ => requestedType

/-- The selection offsets of `extractFragment`: both endpoints through
`getPositionOfLineAndCharacter`, with the manual loop as the catch-branch
fallback, then clamped into the file. -/
def selectionOffsets (content : String) (range : Range) : Nat × Nat :=
  let len := content.data.length
  let p :=
    match tsPositionOf content range.start.line range.start.character,
          tsPositionOf content range.stop.line range.stop.character with
    | some a, some b => (a, b)
    | _, _ => (manualOffset content range.start.line range.start.character,
               manualOffset content range.stop.line range.stop.character)
  let startPos := min p.1 len
  (startPos, max startPos (min p.2 len))

/-- `TypeScriptPlugin.extractFragment`: find the smallest declaration node
fully containing the selection, falling back to the line-snapped literal
selection when there is none, when the chosen node spans the whole file or
more than 80% of it, or when it is not a declaration.  The 80% test
`nodeSize / fileSize > 0.8` is computed in binary floating point by the
source; it is modelled by the exact comparison `5 * nodeSize > 4 * fileSize`,
which agrees for every file smaller than 2^52 characters. -/
def tsExtractFragment (parse : String → SourceAst) (content : String)
    (range : Range) (type : FragmentType) : Option CodeFragment :=
  let sourceFile := parse content
  let len := content.data.length
  let startPos := (selectionOffsets content range).1
  let endPos := (selectionOffsets content range).2
  let candidates := sourceFile.nodes.filter (fun n =>
    visitedByWalk sourceFile startPos endPos n
      && decide (n.startPos ≤ startPos) && decide (endPos ≤ n.endPos)
      && isDeclarationKind n.kind)
  let sorted := stableSort
    (fun a b => decide (a.endPos - a.startPos ≤ b.endPos - b.startPos)) candidates
  let targetNode := sorted.find? (fun n => n.nid ≠ sourceFile.rootId)
  match targetNode with
  | some node =>
    if node.nid = sourceFile.rootId
        || (decide (node.startPos = 0) && decide (len - 1 ≤ node.endPos)) then
      some (lineSnappedFragment content range)
    else if !isDeclarationKind node.kind then
      some (lineSnappedFragment content range)
    else if 5 * (node.endPos - node.startPos) > 4 * len then
      some (lineSnappedFragment content range)
    else
      some { content := substringOf content node.startPos node.endPos,
             filePath := "",
             relativePath := none,
             range := some range,
             type := getNodeType node.kind type,
             language := "typescript" }
  | none => some (lineSnappedFragment content range)

end TsPlugin

end CopyDeps

namespace CopyDeps

namespace TsPlugin

open SourceAst

/-- The name-identifier child id of a named declaration kind (the kinds
checked by `isDeclarationName`). -/
def declNameId : TsKind → Option Nat
  | .functionDecl i => i
  | .classDecl i => i
  | .interfaceDecl i => some i
  | .typeAliasDecl i => some i
  | .enumDecl i => some i
  | .variableDeclaration i => i
  | .parameter i => i
  | _ => none

/-- The text of a declaration's name identifier (`node.name.text` after the
`node.name` / `ts.isIdentifier(node.name)` guards). -/
def nameTextOf (ast : SourceAst) (n : TsNode) : Option String :=
  match declNameId n.kind with
  | none => none
  | some i =>
    match ast.byId i with
    | some c =>
      match c.kind with
      | .identifier t => some t
      | _ => none
    | none => none

/-- `statement.declarationList.declarations` of a variable statement. -/
def varDeclarationsOf (ast : SourceAst) (stmt : TsNode) : List TsNode :=
  match (ast.nodes.filter (fun c => c.parent = some stmt.nid)).find?
      (fun c => c.kind = .variableDeclList) with
  | some l => ast.nodes.filter (fun c =>
      c.parent = some l.nid
        && (match c.kind with | .variableDeclaration _ => true | _ => false))
  | none => []

/-- `addDeclaration` of `extractLocalDependencies`: first declaration wins in
the by-name index; the by-node name list collects every name bound by the
node, in order. -/
def addDeclaration (name : String) (node : TsNode)
    (st : List (String × TsNode) × List (Nat × List String)) :
    List (String × TsNode) × List (Nat × List String) :=
  let byName :=
    if (st.1.lookup name).isSome then st.1 else st.1 ++ [(name, node)]
  let names := (st.2.lookup node.nid).getD []
  let names := if name ∈ names then names else names ++ [name]
  let namesBy :=
    if (st.2.lookup node.nid).isSome then
      st.2.map (fun e => if e.1 = node.nid then (node.nid, names) else e)
    else st.2 ++ [(node.nid, names)]
  (byName, namesBy)

/-- The loop over `sourceFile.statements` building `declarationByName` and
`declarationNamesByNode`. -/
def buildDeclarationIndex (ast : SourceAst) :
    List (String × TsNode) × List (Nat × List String) :=
  ast.statements.foldl
    (fun st stmt =>
      match stmt.kind with
      | .functionDecl _ =>
        match nameTextOf ast stmt with
        | some nm => addDeclaration nm stmt st
        | none => st
      | .classDecl _ =>
        match nameTextOf ast stmt with
        | some nm => addDeclaration nm stmt st
        | none => st
      | .interfaceDecl _ =>
        match nameTextOf ast stmt with
        | some nm => addDeclaration nm stmt st
        | none => st
      | .typeAliasDecl _ =>
        match nameTextOf ast stmt with
        | some nm => addDeclaration nm stmt st
        | none => st
      | .enumDecl _ =>
        match nameTextOf ast stmt with
        | some nm => addDeclaration nm stmt st
        | none => st
      | .variableStatement =>
        (varDeclarationsOf ast stmt).foldl
          (fun st2 decl =>
            match nameTextOf ast decl with
            | some nm => addDeclaration nm stmt st2
            | none => st2) st
      | _ => st)
    ([], [])

/-- The name a node contributes to a locally-declared-names set (the
`addName` cases shared by `collectLocalDeclarations` and
`getLocalDeclaredNamesForNode`). -/
def localNameOfKind (ast : SourceAst) (n : TsNode) : Option String :=
  match n.kind with
  | .functionDecl _ => nameTextOf ast n
  | .classDecl _ => nameTextOf ast n
  | .interfaceDecl _ => nameTextOf ast n
  | .typeAliasDecl _ => nameTextOf ast n
  | .enumDecl _ => nameTextOf ast n
  | .variableDeclaration _ => nameTextOf ast n
  | .parameter _ => nameTextOf ast n
  | _ => none

/-- `collectLocalDeclarations`: the names declared by nodes whose subtree
walk from the root reaches them without crossing a node disjoint from the
selection span (the root itself included in the check). -/
def localDeclaredNames (ast : SourceAst) (spanStart spanEnd : Nat) : List String :=
  (ast.nodes.filter
    (fun n => (n :: ast.ancestorsOf n).all (overlaps spanStart spanEnd))).filterMap
    (localNameOfKind ast)

/-- `isDeclarationName`: the identifier is the name child of its parent
declaration (`parent.name === identifier`). -/
def isDeclarationName (ast : SourceAst) (n : TsNode) : Bool :=
  match ast.parentOf n with
  | some p => declNameId p.kind = some n.nid
  | none => false

/-- `getLocalDeclaredNamesForNode`: every declared name in the node's
subtree. -/
def namesInSubtree (ast : SourceAst) (w : TsNode) : List String :=
  (ast.nodes.filter (fun n => ast.inSubtreeOf w n)).filterMap (localNameOfKind ast)

/-- `collectIdentifiersInSpan` walked from `w`: the identifiers reached by
the span-pruned subtree walk that are not property-access or
property-assignment names nor declaration names, whose text names a known
top-level declaration not locally shadowed; collected as an insertion-order
set. -/
def identifiersInSpan (ast : SourceAst) (w : TsNode) (spanStart spanEnd : Nat)
    (declarationByName : List (String × TsNode)) (localNames : List String) :
    List String :=
  (ast.nodes.filter (fun n =>
      ast.inSubtreeOf w n
        && (ast.chainWithin w n).all (overlaps spanStart spanEnd))).foldl
    (fun out n =>
      match n.kind with
      | .identifier t =>
        let isPropName :=
          match ast.parentOf n with
          | some p =>
            (match p.kind with
             | .propertyAccess i => decide (i = n.nid)
             | .propertyAssignment i => decide (i = n.nid)
             | _ => false)
          | none => false
        if isPropName then out
        else if isDeclarationName ast n then out
        else if (declarationByName.lookup t).isSome && !(localNames.contains t) then
          (if t ∈ out then out else out ++ [t])
        else out
      | _ => out)
    []

/-- `findTargetDeclarationName`: the first top-level function or class
statement whose span contains the selection. -/
def findTargetDeclarationName (ast : SourceAst) (spanStart spanEnd : Nat) :
    Option String :=
  (ast.statements.filterMap (fun stmt =>
    if decide (stmt.startPos ≤ spanStart) && decide (spanEnd ≤ stmt.endPos) then
      match stmt.kind with
      | .functionDecl _ => nameTextOf ast stmt
      | .classDecl _ => nameTextOf ast stmt
      | _ => none
    else none)).head?

/-- `collectUsageDependencies`: for each use of the target declaration's
name outside the selection, pull in every known declaration name mentioned
in the enclosing statement. -/
def usageDependencyNames (ast : SourceAst) (targetName : String)
    (spanStart spanEnd : Nat) (declarationByName : List (String × TsNode))
    (initial : List String) : List String :=
  ast.nodes.foldl
    (fun req n =>
      match n.kind with
      | .identifier t =>
        if t = targetName && !(isDeclarationName ast n) then
          match (n :: ast.ancestorsOf n).find? (fun m => isStatementKind m.kind) with
          | some stmt =>
            if decide (stmt.endPos < spanStart) || decide (stmt.startPos > spanEnd) then
              (ast.nodes.filter (fun m => ast.inSubtreeOf stmt m)).foldl
                (fun req2 m =>
                  match m.kind with
                  | .identifier u =>
                    if u = targetName then req2
                    else if isDeclarationName ast m then req2
                    else if (declarationByName.lookup u).isSome then
                      (if u ∈ req2 then req2 else req2 ++ [u])
                    else req2
                  | _ => req2)
                req
            else req
          | none => req
        else req
      | _ => req)
    initial

/-- The `while (queue.length > 0)` closure loop.  The fuel passed by
`tsExtractLocalDependencies` is an upper bound on the number of iterations:
every enqueue consumes a declaration name not yet required. -/
def closureLoop (ast : SourceAst) (declarationByName : List (String × TsNode)) :
    Nat → List String → List String → List Nat → List TsNode → List TsNode
  | 0, _, _, _, acc => acc
  | _ + 1, [], _, _, acc => acc
  | fuel + 1, name :: queue, required, seen, acc =>
    if name = "" then closureLoop ast declarationByName fuel queue required seen acc
    else
      match declarationByName.lookup name with
      | none => closureLoop ast declarationByName fuel queue required seen acc
      | some node =>
        if node.nid ∈ seen then
          closureLoop ast declarationByName fuel queue required seen acc
        else
          let nodeLocalNames := namesInSubtree ast node
          let nodeNames := identifiersInSpan ast node node.startPos node.endPos
            declarationByName nodeLocalNames
          let step := nodeNames.foldl
            (fun (rq : List String × List String) dn =>
              if dn ∈ rq.1 then rq else (rq.1 ++ [dn], rq.2 ++ [dn]))
            (required, queue)
          closureLoop ast declarationByName fuel step.2 step.1
            (seen ++ [node.nid]) (acc ++ [node])

/-- The final emission step of `extractLocalDependencies` for one required
node: the node's source text as a Dependency whose paths carry the
`#local:` pseudo-path suffix. -/
def mkLocalDependency (content filePath relativeBase : String)
    (declarationNamesByNode : List (Nat × List String)) (node : TsNode) :
    Dependency :=
  let names := (declarationNamesByNode.lookup node.nid).getD []
  let name := names.head?
  let type : DepType :=
    match node.kind with
    | .classDecl _ => .classD
    | .interfaceDecl _ => .interfaceD
    | .typeAliasDecl _ => .typeD
    | .enumDecl _ => .enumD
    | .variableStatement => .constantD
    | _ => .functionD
  let suffix := match name with | some nm => "#local:" ++ nm | none => "#local"
  { filePath := filePath ++ suffix,
    content := substringOf content node.startPos node.endPos,
    relativePath := relativeBase ++ suffix,
    type := type,
    name := name }

/-- `TypeScriptPlugin.extractLocalDependencies`. -/
def tsExtractLocalDependencies (parse : String → SourceAst) (content : String)
    (range : Range) (filePath workspaceRoot : String) : List Dependency :=
  let sourceFile := parse content
  match sourceFile.nodes.head? with
  | none => []
  | some root =>
    let p :=
      match tsPositionOf content range.start.line range.start.character,
            tsPositionOf content range.stop.line range.stop.character with
      | some a, some b => (a, b)
      | _, _ => (0, content.data.length)
    let startPos := p.1
    let endPos := p.2
    let index := buildDeclarationIndex sourceFile
    let declarationByName := index.1
    let declarationNamesByNode := index.2
    let localNames := localDeclaredNames sourceFile startPos endPos
    let required0 :=
      identifiersInSpan sourceFile root startPos endPos declarationByName localNames
    let required1 :=
      match findTargetDeclarationName sourceFile startPos endPos with
      | some targetName =>
        usageDependencyNames sourceFile targetName startPos endPos
          declarationByName required0
      | none => required0
    let requiredNodes := closureLoop sourceFile declarationByName
      (required1.length + declarationByName.length + 1) required1 required1 [] []
    let sortedNodes := stableSort
      (fun a b => decide (a.startPos ≤ b.startPos)) requiredNodes
    let relativeBase := NodePath.relative workspaceRoot filePath
    sortedNodes.map (mkLocalDependency content filePath relativeBase
      declarationNamesByNode)

end TsPlugin

end CopyDeps

namespace CopyDeps

/-! ## The shape of a resolve call's result when a plugin is present -/

namespace DependencyResolver

/-- The instance state left by the recursive traversal of a resolve call:
`resolveDependenciesRecursive` from the target file on the freshly cleared
state, with the effective depth budget. -/
def finalTraversalState (fs : FileSys) (plugin : LanguagePlugin)
    (fragment : CodeFragment) (options : ResolveOptions) : ResolverState :=
  resolveDependenciesRecursive fs plugin options
    (effectiveMaxDepth options.maxDepth) fragment.filePath ResolverState.empty

/-- The local (same-file) dependencies a resolve call appends after the
topologically sorted cross-file ones: present only when the fragment carries
a range and a truthy file path, the plugin implements
`extractLocalDependencies`, and the file is readable. -/
def localDepsOf (fs : FileSys) (plugin : LanguagePlugin)
    (fragment : CodeFragment) (options : ResolveOptions) : List Dependency :=
  match fragment.range, plugin.extractLocalDependencies with
  | some range, some extract =>
    if fragment.filePath = "" then []
    else
      match fs fragment.filePath with
      | some fileContent =>
        extract fileContent range fragment.filePath options.workspaceRoot
      | none => []
  | _, _ => []

/-- The error message the local-dependency step of resolve may add. -/
def localErrOf (fs : FileSys) (plugin : LanguagePlugin)
    (fragment : CodeFragment) : List String :=
  match fragment.range, plugin.extractLocalDependencies with
  | some _, some _ =>
    if fragment.filePath = "" then []
    else
      match fs fragment.filePath with
      | some _ => []
      | none => ["Cannot read file for local deps: " ++ fragment.filePath]
  | _, _ => []

/-- With a plugin present, the result of resolve is the topologically sorted
cross-file dependencies followed by the local ones, and the errors are the
traversal's errors followed by the local read error, if any. -/
theorem resolve_some_shape (fs : FileSys) (plugin : LanguagePlugin)
    (priorState : ResolverState) (fragment : CodeFragment)
    (options : ResolveOptions) :
    (resolve fs (some plugin) priorState fragment options).2.dependencies =
      topologicalSort (finalTraversalState fs plugin fragment options).dependencyGraph
        (finalTraversalState fs plugin fragment options).resolvedDependencies ++
        localDepsOf fs plugin fragment options ∧
    (resolve fs (some plugin) priorState fragment options).2.errors =
      (finalTraversalState fs plugin fragment options).errors ++
        localErrOf fs plugin fragment := by
  simp only [resolve, finalTraversalState, localDepsOf, localErrOf]
  cases hr : fragment.range with
  | none => cases he : plugin.extractLocalDependencies <;> simp
  | some range =>
    cases he : plugin.extractLocalDependencies with
    | none => simp
    | some extract =>
      by_cases hfp : fragment.filePath = ""
      · simp [hfp]
      · cases hfs : fs fragment.filePath <;> simp [hfp, hfs]

/-- The effective depth budget is always at least one: `0 || 10` is `10`. -/
theorem effectiveMaxDepth_pos (m : Option Nat) : 1 ≤ effectiveMaxDepth m := by
  cases m with
  | none => decide
  | some n =>
    by_cases h : n = 0
    · simp [effectiveMaxDepth, h]
    · simp only [effectiveMaxDepth, h, if_false]
      omega

theorem lookup_mem {β : Type} (k : String) (v : β) :
    ∀ l : List (String × β), l.lookup k = some v → (k, v) ∈ l := by
  intro l
  induction l with
  | nil => intro h; cases h
  | cons e rest ih =>
    intro h
    rcases e with ⟨q, w⟩
    simp only [List.lookup] at h
    by_cases hk : k = q
    · subst hk
      rw [beq_self_eq_true] at h
      simp only [] at h
      cases h
      exact List.mem_cons_self _ _
    · have hb : (k == q) = false := beq_eq_false_iff_ne.mpr hk
      rw [hb] at h
      simp only [] at h
      exact List.mem_cons_of_mem _ (ih h)

/-- A decidable certificate of acyclicity: a rank strictly decreasing along
every listed edge. -/
def edgeRankOk (g : List (String × List String)) (rank : String → Nat) : Bool :=
  g.all (fun e => e.2.all (fun b => decide (rank b < rank e.1)))

theorem acyclic_of_rankOk (g : List (String × List String)) (rank : String → Nat)
    (h : edgeRankOk g rank = true) : Acyclic g := by
  apply acyclic_of_rank g rank
  intro x y hxy
  unfold Edge succOf at hxy
  cases hlk : g.lookup x with
  | none => rw [hlk] at hxy; cases hxy
  | some l =>
    rw [hlk] at hxy
    simp only [Option.getD] at hxy
    have hmem : (x, l) ∈ g := lookup_mem x l g hlk
    have h1 := (List.all_eq_true.mp h) _ hmem
    have h2 := (List.all_eq_true.mp h1) _ hxy
    exact of_decide_eq_true h2

/-- Every message of the local-dependency step is the read failure of the
fragment's own file. -/
theorem localErrOf_spec (fs : FileSys) (plugin : LanguagePlugin)
    (fragment : CodeFragment) :
    ∀ e ∈ localErrOf fs plugin fragment,
      e = "Cannot read file for local deps: " ++ fragment.filePath ∧
        fs fragment.filePath = none := by
  intro e he
  unfold localErrOf at he
  rcases hr : fragment.range with _ | range <;> rw [hr] at he
  · cases plugin.extractLocalDependencies <;> cases he
  · rcases he2 : plugin.extractLocalDependencies with _ | extract <;> rw [he2] at he
    · cases he
    · by_cases hfp : fragment.filePath = ""
      · rw [if_pos hfp] at he; cases he
      · rw [if_neg hfp] at he
        cases hfs : fs fragment.filePath <;> rw [hfs] at he
        · simp only [List.mem_singleton] at he
          exact ⟨he, rfl⟩
        · cases he

end DependencyResolver

end CopyDeps

namespace CopyDeps

/-! ## The chosen node of extractFragment -/

/-- In a list sorted by `le`, the first element satisfying `p` is `le` every
element satisfying `p`. -/
theorem find?_min_of_pairwise {α : Type} (le : α → α → Bool) (p : α → Bool)
    (htot : ∀ a b, (le a b || le b a) = true) :
    ∀ (l : List α) (x : α), l.Pairwise (fun a b => le a b = true) →
      l.find? p = some x → ∀ y ∈ l, p y = true → le x y = true := by
  intro l
  induction l with
  | nil => intro x _ h; cases h
  | cons z zs ih =>
    intro x hpw hfind y hy hpy
    rw [List.pairwise_cons] at hpw
    obtain ⟨hz, hzs⟩ := hpw
    simp only [List.find?] at hfind
    cases hpz : p z with
    | true =>
      rw [hpz] at hfind
      simp only [] at hfind
      cases hfind
      rcases List.mem_cons.mp hy with rfl | hy'
      · have := htot y y
        rw [Bool.or_eq_true] at this
        rcases this with h' | h' <;> exact h'
      · exact hz y hy'
    | false =>
      rw [hpz] at hfind
      simp only [] at hfind
      rcases List.mem_cons.mp hy with rfl | hy'
      · rw [hpy] at hpz; cases hpz
      · exact ih x hzs hfind y hy' hpy

namespace TsPlugin

/-- The candidate nodes of `extractFragment`: the declaration nodes reached
by the pruned walk that contain the whole selection span. -/
def candidatesOf (parse : String → SourceAst) (content : String)
    (range : Range) : List TsNode :=
  let sourceFile := parse content
  let startPos := (selectionOffsets content range).1
  let endPos := (selectionOffsets content range).2
  sourceFile.nodes.filter (fun n =>
    visitedByWalk sourceFile startPos endPos n
      && decide (n.startPos ≤ startPos) && decide (endPos ≤ n.endPos)
      && isDeclarationKind n.kind)

/-- The node `extractFragment` settles on: the first non-root candidate in
the size-sorted candidate list. -/
def chosenNodeOf (parse : String → SourceAst) (content : String)
    (range : Range) : Option TsNode :=
  (stableSort (fun a b => decide (a.endPos - a.startPos ≤ b.endPos - b.startPos))
    (candidatesOf parse content range)).find?
    (fun n => n.nid ≠ (parse content).rootId)

/-- `tsExtractFragment` as a case split on the chosen node. -/
theorem tsExtractFragment_eq_chosen (parse : String → SourceAst)
    (content : String) (range : Range) (type : FragmentType) :
    tsExtractFragment parse content range type =
      match chosenNodeOf parse content range with
      | some node =>
        if node.nid = (parse content).rootId
            || (decide (node.startPos = 0)
                && decide (content.data.length - 1 ≤ node.endPos)) then
          some (lineSnappedFragment content range)
        else if !isDeclarationKind node.kind then
          some (lineSnappedFragment content range)
        else if 5 * (node.endPos - node.startPos) > 4 * content.data.length then
          some (lineSnappedFragment content range)
        else
          some { content := substringOf content node.startPos node.endPos,
                 filePath := "",
                 relativePath := none,
                 range := some range,
                 type := getNodeType node.kind type,
                 language := "typescript" }
      | none => some (lineSnappedFragment content range) := rfl

end TsPlugin

end CopyDeps

namespace CopyDeps

/-! ## Concrete instances: Scenario A and a parsed source with local functions -/

open DependencyResolver

/-- Scenario A: `a.ts` imports `./b`, `b.ts` imports `./c`, `c.ts` imports
nothing. -/
def scAContent : String := "import {b} from './b'\nconst a = 1\n"

def scBContent : String := "import {c} from './c'\nconst b = 2\n"

def scCContent : String := "const c = 3\n"

def scFs : FileSys := fun p =>
  if p = "/w/a.ts" then some scAContent
  else if p = "/w/b.ts" then some scBContent
  else if p = "/w/c.ts" then some scCContent
  else none

def scImportB : ImportInfo :=
  { path := "./b", names := ["b"], type := .named,
    raw := "import {b} from './b'", position := none, fromFile := none }

def scImportC : ImportInfo :=
  { path := "./c", names := ["c"], type := .named,
    raw := "import {c} from './c'", position := none, fromFile := none }

def scDepB : Dependency :=
  { filePath := "/w/b.ts", content := scBContent, relativePath := "b.ts",
    type := .importD, name := some "b" }

def scDepC : Dependency :=
  { filePath := "/w/c.ts", content := scCContent, relativePath := "c.ts",
    type := .importD, name := some "c" }

/-- A table-driven language plugin behaving like the TypeScript plugin on the
Scenario A files. -/
def scPlugin : LanguagePlugin :=
  { languageId := "typescript",
    fileExtensions := [".ts"],
    parseImports := fun content _ =>
      if content = scAContent then [scImportB]
      else if content = scBContent then [scImportC]
      else [],
    resolveDependency := fun imp _ =>
      if imp.path = "./b" then some scDepB
      else if imp.path = "./c" then some scDepC
      else none,
    extractLocalDependencies := none,
    isExternalDependency := isExternalDependency }

/-- Scenario A's target: the whole-file fragment of `a.ts`. -/
def scFrag : CodeFragment :=
  { content := scAContent, filePath := "/w/a.ts", relativePath := none,
    range := none, type := .file, language := "typescript" }

def scOpts : ResolveOptions :=
  { maxDepth := none, includeComments := false, includeExternal := false,
    workspaceRoot := "/w" }

/-- Scenario A's options with the explicit depth limit 0. -/
def scOpts0 : ResolveOptions := { scOpts with maxDepth := some 0 }

/-- Scenario A's options with the explicit depth limit 1. -/
def scOpts1 : ResolveOptions := { scOpts with maxDepth := some 1 }

/-- A rank certifying that Scenario A's accumulated graph is acyclic. -/
def scRank : String → Nat := fun p =>
  if p = "/w/a.ts" then 2 else if p = "/w/b.ts" then 1 else 0

/-- A source file with two top-level functions, `foo` (calling `bar`) and
`bar`. -/
def cxContent : String := "function foo() { bar() }\nfunction bar() {}\n"

/-- The parsed tree of `cxContent`: the source file, the two function
declarations, their name identifiers and the `bar` call inside `foo`. -/
def cxAst : SourceAst :=
  ⟨[⟨0, .sourceFile, 0, 43, none⟩,
    ⟨1, .functionDecl (some 2), 0, 24, some 0⟩,
    ⟨2, .identifier "foo", 9, 12, some 1⟩,
    ⟨3, .identifier "bar", 17, 20, some 1⟩,
    ⟨4, .functionDecl (some 5), 25, 42, some 0⟩,
    ⟨5, .identifier "bar", 34, 37, some 4⟩]⟩

/-- The parser used by the concrete TypeScript-plugin runs: every content
parses to `cxAst`. -/
def cxParse : String → SourceAst := fun _ => cxAst

/-- The selection: the whole first line (the body of `foo`). -/
def cxRange : Range := ⟨⟨0, 0⟩, ⟨0, 24⟩⟩

/-- The function node of `foo` in `cxAst`. -/
def cxNode : TsNode := ⟨1, .functionDecl (some 2), 0, 24, some 0⟩

/-- The local dependency extracted for `bar`. -/
def cxDep : Dependency :=
  { filePath := "/w/a.ts#local:bar", content := "function bar() {}",
    relativePath := "a.ts#local:bar", type := .functionD, name := some "bar" }

/-- A dependency record for the adversarial file whose on-disk name is
`/w/a.ts#local:bar`. -/
def cxRealDep : Dependency :=
  { filePath := "/w/a.ts#local:bar", content := "", relativePath := "a.ts#local:bar",
    type := .importD, name := none }

/-- The import of the adversarial file. -/
def cxImport : ImportInfo :=
  { path := "./a.ts#local:bar", names := [], type := .sideEffect,
    raw := "import './a.ts#local:bar'", position := none, fromFile := none }

/-- A file system where `a.ts` sits beside a file literally named
`/w/a.ts#local:bar`. -/
def cxFs : FileSys := fun p =>
  if p = "/w/a.ts" then some cxContent
  else if p = "/w/a.ts#local:bar" then some ""
  else none

/-- A plugin with the TypeScript plugin's local-dependency extraction that
parses the adversarial import out of `a.ts`. -/
def cxPlugin : LanguagePlugin :=
  { languageId := "typescript",
    fileExtensions := [".ts"],
    parseImports := fun content _ =>
      if content = cxContent then [cxImport] else [],
    resolveDependency := fun imp _ =>
      if imp.path = "./a.ts#local:bar" then some cxRealDep else none,
    extractLocalDependencies := some (fun fileContent range filePath workspaceRoot =>
      TsPlugin.tsExtractLocalDependencies cxParse fileContent range filePath
        workspaceRoot),
    isExternalDependency := isExternalDependency }

/-- The selection fragment of `a.ts` covering `foo`. -/
def cxFrag : CodeFragment :=
  { content := "function foo() { bar() }", filePath := "/w/a.ts",
    relativePath := none, range := some cxRange, type := .selection,
    language := "typescript" }

end CopyDeps

namespace CopyDeps

open DependencyResolver

/-- An everywhere-unreadable file system. -/
def fs6 : FileSys := fun _ => none

/-- A whole-file fragment whose file cannot be read. -/
def frag6 : CodeFragment :=
  { content := "", filePath := "/w/x.ts", relativePath := none, range := none,
    type := .file, language := "typescript" }

/-- Claim C1, counterexample: with `options.maxDepth = 0` the resolver does
not stop at the target's direct read attempt — `options.maxDepth || 10`
treats 0 as absent, so the whole Scenario A chain is resolved although
nothing is reachable within depth 0. -/
theorem spec_c1_counterexample :
    scOpts0.maxDepth = some 0 ∧
    reachWithin scFs scPlugin scOpts0.workspaceRoot 0 scFrag.filePath = [] ∧
    (resolve scFs (some scPlugin) ResolverState.empty scFrag scOpts0).2.dependencies
      = [scDepC, scDepB] :=
  ⟨rfl, rfl, by decide⟩

/-- Claim C1 (amended): for `options.maxDepth = N` with `N ≥ 1`, every
returned dependency is either a same-file local dependency or cached under a
path reachable from the target within `N` import edges — no file at
traversal depth greater than `N` appears.  For `N = 0` the guarantee fails:
`options.maxDepth || 10` makes the depth budget 10, not 0. -/
theorem spec_c1 :
    (∀ (fs : FileSys) (plugin : LanguagePlugin) (priorState : ResolverState)
       (fragment : CodeFragment) (options : ResolveOptions) (N : Nat),
       options.maxDepth = some N → 1 ≤ N →
       ∀ d ∈ (resolve fs (some plugin) priorState fragment options).2.dependencies,
         d ∈ localDepsOf fs plugin fragment options ∨
         ∃ p ∈ reachWithin fs plugin options.workspaceRoot N fragment.filePath,
           (p, d) ∈ (finalTraversalState fs plugin fragment options).resolvedDependencies) ∧
    effectiveMaxDepth (some 0) = 10 := by
  constructor
  · intro fs plugin priorState fragment options N hN h1 d hd
    have hfuel : effectiveMaxDepth options.maxDepth = N := by
      rw [hN]
      unfold effectiveMaxDepth
      simp only []
      rw [if_neg (by omega : ¬N = 0)]
    rw [(resolve_some_shape fs plugin priorState fragment options).1] at hd
    rcases List.mem_append.mp hd with hd1 | hd2
    · right
      obtain ⟨⟨dl, hdl, hp⟩, _, hnd⟩ :=
        resolveDependenciesRecursive_recOut fs plugin options
          (effectiveMaxDepth options.maxDepth) fragment.filePath ResolverState.empty
      have hndk : ((finalTraversalState fs plugin fragment
          options).resolvedDependencies.map Prod.fst).Nodup := by
        unfold finalTraversalState
        exact hnd (by simp [ResolverState.empty])
      have hperm := topologicalSort_perm
        (finalTraversalState fs plugin fragment options).dependencyGraph
        (finalTraversalState fs plugin fragment options).resolvedDependencies hndk
      have hd3 := hperm.mem_iff.mp hd1
      obtain ⟨e, he, hsnd⟩ := List.mem_map.mp hd3
      refine ⟨e.1, ?_, ?_⟩
      · have hedl : e ∈ dl := by
          have : (finalTraversalState fs plugin fragment options).resolvedDependencies
              = dl := by
            unfold finalTraversalState
            rw [hdl]
            simp [ResolverState.empty]
          exact this ▸ he
        have := hp e hedl
        rw [hfuel] at this
        exact this
      · rw [← hsnd]
        exact he
    · exact Or.inl hd2
  · rfl

/-- Claim C1, witness at Scenario A with `maxDepth = 1`. -/
theorem spec_c1_witness :
    scDepB ∈ localDepsOf scFs scPlugin scFrag scOpts1 ∨
    ∃ p ∈ reachWithin scFs scPlugin scOpts1.workspaceRoot 1 scFrag.filePath,
      (p, scDepB) ∈ (finalTraversalState scFs scPlugin scFrag scOpts1).resolvedDependencies :=
  spec_c1.1 scFs scPlugin ResolverState.empty scFrag scOpts1 1 rfl (by decide)
    scDepB (by decide)

/-- Claim C2: on an acyclic accumulated graph, every resolved dependency of
an edge's source is emitted strictly after the resolved dependency of its
target; and Scenario A concretely yields `dependencies = [c, b]` with the
target fragment holding a's content. -/
theorem spec_c2 :
    (∀ (fs : FileSys) (plugin : LanguagePlugin) (priorState : ResolverState)
       (fragment : CodeFragment) (options : ResolveOptions) (a b : String)
       (da db : Dependency),
       Acyclic (finalTraversalState fs plugin fragment options).dependencyGraph →
       (((finalTraversalState fs plugin fragment options).dependencyGraph.map
           Prod.fst).Nodup) →
       Edge (finalTraversalState fs plugin fragment options).dependencyGraph a b →
       (finalTraversalState fs plugin fragment options).resolvedDependencies.lookup a
         = some da →
       (finalTraversalState fs plugin fragment options).resolvedDependencies.lookup b
         = some db →
       ∃ u v, (resolve fs (some plugin) priorState fragment options).2.dependencies
           = u ++ db :: v ∧ da ∈ v) ∧
    (resolve scFs (some scPlugin) ResolverState.empty scFrag scOpts).2.dependencies
      = [scDepC, scDepB] ∧
    (resolve scFs (some scPlugin) ResolverState.empty scFrag scOpts).2.targetFragment.content
      = scAContent := by
  refine ⟨?_, by decide, rfl⟩
  intro fs plugin priorState fragment options a b da db hacyc hnd hedge hda hdb
  obtain ⟨u, v, hts, hin⟩ := topologicalSort_ordering
    (finalTraversalState fs plugin fragment options).dependencyGraph
    (finalTraversalState fs plugin fragment options).resolvedDependencies
    hnd hacyc a b hedge da db hda hdb
  refine ⟨u, v ++ localDepsOf fs plugin fragment options, ?_,
    List.mem_append_left _ hin⟩
  rw [(resolve_some_shape fs plugin priorState fragment options).1, hts]
  simp [List.append_assoc]

/-- Claim C2, witness: in Scenario A, c's record precedes b's. -/
theorem spec_c2_witness :
    ∃ u v, (resolve scFs (some scPlugin) ResolverState.empty scFrag scOpts).2.dependencies
        = u ++ scDepC :: v ∧ scDepB ∈ v :=
  spec_c2.1 scFs scPlugin ResolverState.empty scFrag scOpts "/w/b.ts" "/w/c.ts"
    scDepB scDepC (acyclic_of_rankOk _ scRank (by decide)) (by decide)
    (by unfold Edge; decide) (by decide) (by decide)

/-- Claim C3: the topological sort of any accumulated graph, cyclic ones
included, emits the resolved dependency records as a permutation of the
cache (each resolved path exactly once, none duplicated, none dropped), and
the traversal keeps the cache's keys duplicate-free. -/
theorem spec_c3 :
    (∀ (g : List (String × List String)) (r : List (String × Dependency)),
       (r.map Prod.fst).Nodup → (topologicalSort g r).Perm (r.map Prod.snd)) ∧
    (∀ (fs : FileSys) (plugin : LanguagePlugin) (options : ResolveOptions)
       (fuel : Nat) (filePath : String),
       ((resolveDependenciesRecursive fs plugin options fuel filePath
           ResolverState.empty).resolvedDependencies.map Prod.fst).Nodup) := by
  refine ⟨topologicalSort_perm, ?_⟩
  intro fs plugin options fuel filePath
  obtain ⟨_, _, hnd⟩ := resolveDependenciesRecursive_recOut fs plugin options fuel
    filePath ResolverState.empty
  exact hnd (by simp [ResolverState.empty])

/-- Claim C3, witness: a two-node cyclic graph still emits each record
exactly once. -/
theorem spec_c3_witness :
    (topologicalSort [("/w/a.ts", ["/w/b.ts"]), ("/w/b.ts", ["/w/a.ts"])]
        [("/w/a.ts", scDepB), ("/w/b.ts", scDepC)]).Perm
      ([("/w/a.ts", scDepB), ("/w/b.ts", scDepC)].map Prod.snd) :=
  spec_c3.1 _ _ (by decide)

/-- Claim C4: external specifiers are never resolved to a local path;
non-external ones probe, in order, the base path with each configured
extension, the bare base path, then `index` files under it, returning the
first existing candidate (`none` when none exists); and the base plugin
judges a specifier external iff it starts with neither `.` nor `/`, or
mentions node_modules. -/
theorem spec_c4 :
    ∀ (fs : FileSys) (plugin : LanguagePlugin)
      (importPath fromFile workspaceRoot : String),
      (plugin.isExternalDependency importPath = true →
        resolveImportPath fs plugin importPath fromFile workspaceRoot = none) ∧
      (plugin.isExternalDependency importPath = false →
        resolveImportPath fs plugin importPath fromFile workspaceRoot =
          (candidatePaths plugin.fileExtensions
            (importBasePath importPath fromFile workspaceRoot)).find?
            (fun p => existsSync fs p)) ∧
      isExternalDependency importPath =
        ((!jsStartsWith importPath "." && !jsStartsWith importPath "/")
          || jsIncludes importPath "node_modules") := by
  intro fs plugin importPath fromFile workspaceRoot
  refine ⟨?_, ?_, ?_⟩
  · intro h
    unfold resolveImportPath
    rw [if_pos h]
  · intro h
    rw [resolveImportPath_eq_spec]
    unfold resolveImportPathSpec
    rw [if_neg (by simp [h])]
  · unfold isExternalDependency
    cases h1 : (!jsStartsWith importPath "." && !jsStartsWith importPath "/") <;>
      cases h2 : jsIncludes importPath "node_modules" <;> simp [h1, h2]

/-- Claim C4, witness: resolving `./b` from `a.ts` probes the candidate list
in order. -/
theorem spec_c4_witness :
    resolveImportPath scFs scPlugin "./b" "/w/a.ts" "/w" =
      (candidatePaths scPlugin.fileExtensions
        (importBasePath "./b" "/w/a.ts" "/w")).find? (fun p => existsSync scFs p) :=
  ((spec_c4 scFs scPlugin "./b" "/w/a.ts" "/w").2.1) (by decide)

/-- Claim C5: resolve is deterministic in its inputs and leaks no state
between calls — the per-call state is reset at entry, so the result never
depends on the prior instance state, in particular not on the state left by
any previous resolve call. -/
theorem spec_c5 :
    (∀ (fs : FileSys) (pluginOpt : Option LanguagePlugin)
       (prior1 prior2 : ResolverState) (fragment : CodeFragment)
       (options : ResolveOptions),
       resolve fs pluginOpt prior1 fragment options =
         resolve fs pluginOpt prior2 fragment options) ∧
    (∀ (fs : FileSys) (pluginOpt : Option LanguagePlugin)
       (prior : ResolverState) (frag1 : CodeFragment) (opts1 : ResolveOptions)
       (frag2 : CodeFragment) (opts2 : ResolveOptions),
       resolve fs pluginOpt (resolve fs pluginOpt prior frag1 opts1).1 frag2 opts2 =
         resolve fs pluginOpt ResolverState.empty frag2 opts2) :=
  ⟨fun _ _ _ _ _ _ => rfl, fun _ _ _ _ _ _ _ => rfl⟩

/-- Claim C6: with no plugin, resolve returns exactly one error and no
dependencies; with a plugin, every reported error is a read failure — either
of a file in the dependency chain or of the fragment's own file during local
extraction — and an unreadable target file is always reported.  Unresolvable
or skipped-external imports never contribute an error. -/
theorem spec_c6 :
    ∀ (fs : FileSys) (pluginOpt : Option LanguagePlugin)
      (priorState : ResolverState) (fragment : CodeFragment)
      (options : ResolveOptions),
      (pluginOpt = none →
        (resolve fs pluginOpt priorState fragment options).2.errors =
          ["No plugin found for language: " ++ fragment.language] ∧
        (resolve fs pluginOpt priorState fragment options).2.dependencies = []) ∧
      (∀ plugin, pluginOpt = some plugin →
        (∀ e ∈ (resolve fs pluginOpt priorState fragment options).2.errors,
          (∃ p, e = "Cannot read file: " ++ p ∧ fs p = none) ∨
          (e = "Cannot read file for local deps: " ++ fragment.filePath ∧
            fs fragment.filePath = none)) ∧
        (fs fragment.filePath = none →
          ("Cannot read file: " ++ fragment.filePath) ∈
            (resolve fs pluginOpt priorState fragment options).2.errors)) := by
  intro fs pluginOpt priorState fragment options
  constructor
  · rintro rfl
    exact ⟨rfl, rfl⟩
  · rintro plugin rfl
    constructor
    · intro e he
      rw [(resolve_some_shape fs plugin priorState fragment options).2] at he
      rcases List.mem_append.mp he with h1 | h2
      · obtain ⟨_, ⟨er, herr, hq⟩, _⟩ :=
          resolveDependenciesRecursive_recOut fs plugin options
            (effectiveMaxDepth options.maxDepth) fragment.filePath ResolverState.empty
        have h1' : e ∈ er := by
          unfold finalTraversalState at h1
          rw [herr] at h1
          simpa [ResolverState.empty] using h1
        obtain ⟨p, hp1, hp2⟩ := hq e h1'
        exact Or.inl ⟨p, hp1, hp2⟩
      · exact Or.inr (localErrOf_spec fs plugin fragment e h2)
    · intro hnone
      rw [(resolve_some_shape fs plugin priorState fragment options).2]
      apply List.mem_append_left
      unfold finalTraversalState
      obtain ⟨k, hk⟩ : ∃ k, effectiveMaxDepth options.maxDepth = k + 1 := by
        have := effectiveMaxDepth_pos options.maxDepth
        exact ⟨effectiveMaxDepth options.maxDepth - 1, by omega⟩
      rw [hk]
      simp only [resolveDependenciesRecursive]
      rw [if_neg (by simp [ResolverState.empty] :
        ¬fragment.filePath ∈ ResolverState.empty.visitedFiles)]
      rw [hnone]
      simp [ResolverState.empty]

/-- Claim C6, witness: an unreadable target file is reported as a read
failure. -/
theorem spec_c6_witness :
    (∃ p, "Cannot read file: /w/x.ts" = "Cannot read file: " ++ p ∧ fs6 p = none) ∨
    ("Cannot read file: /w/x.ts" = "Cannot read file for local deps: " ++ frag6.filePath ∧
      fs6 frag6.filePath = none) :=
  ((spec_c6 fs6 (some scPlugin) ResolverState.empty frag6 scOpts).2 scPlugin rfl).1
    "Cannot read file: /w/x.ts" (by decide)

end CopyDeps

namespace CopyDeps

open TsPlugin

/-- Claim C7: when no non-root candidate contains the selection,
`extractFragment` returns the line-snapped literal selection; otherwise the
chosen node contains the whole selection span, is a declaration, and is of
minimal span size among the non-root candidates — its full text is returned
unless it spans the whole file or more than 80% of it, in which case the
line-snapped literal selection is returned instead. -/
theorem spec_c7 :
    ∀ (parse : String → SourceAst) (content : String) (range : Range)
      (type : FragmentType),
      (chosenNodeOf parse content range = none →
        tsExtractFragment parse content range type =
          some (lineSnappedFragment content range)) ∧
      (∀ node, chosenNodeOf parse content range = some node →
        node ∈ candidatesOf parse content range ∧
        node.startPos ≤ (selectionOffsets content range).1 ∧
        (selectionOffsets content range).2 ≤ node.endPos ∧
        isDeclarationKind node.kind = true ∧
        (∀ m ∈ candidatesOf parse content range, m.nid ≠ (parse content).rootId →
          node.endPos - node.startPos ≤ m.endPos - m.startPos) ∧
        (((node.startPos = 0 ∧ content.data.length - 1 ≤ node.endPos) ∨
            5 * (node.endPos - node.startPos) > 4 * content.data.length) →
          tsExtractFragment parse content range type =
            some (lineSnappedFragment content range)) ∧
        ((¬(node.startPos = 0 ∧ content.data.length - 1 ≤ node.endPos)) →
          5 * (node.endPos - node.startPos) ≤ 4 * content.data.length →
          tsExtractFragment parse content range type =
            some { content := substringOf content node.startPos node.endPos,
                   filePath := "",
                   relativePath := none,
                   range := some range,
                   type := getNodeType node.kind type,
                   language := "typescript" })) := by
  intro parse content range type
  constructor
  · intro hch
    rw [tsExtractFragment_eq_chosen, hch]
  · intro node hch
    have hfind := hch
    unfold chosenNodeOf at hfind
    have hmemSorted := List.mem_of_find?_eq_some hfind
    have hpredB := List.find?_some hfind
    have hnid : node.nid ≠ (parse content).rootId := of_decide_eq_true hpredB
    have hmemCand : node ∈ candidatesOf parse content range :=
      (stableSort_perm _ _).mem_iff.mp hmemSorted
    have hprops : node ∈ (parse content).nodes ∧
        visitedByWalk (parse content) (selectionOffsets content range).1
          (selectionOffsets content range).2 node = true ∧
        node.startPos ≤ (selectionOffsets content range).1 ∧
        (selectionOffsets content range).2 ≤ node.endPos ∧
        isDeclarationKind node.kind = true := by
      have h := hmemCand
      simp only [candidatesOf, List.mem_filter, Bool.and_eq_true,
        decide_eq_true_eq] at h
      exact ⟨h.1, h.2.1.1.1, h.2.1.1.2, h.2.1.2, h.2.2⟩
    have htot : ∀ a b : TsNode,
        ((fun a b : TsNode =>
            decide (a.endPos - a.startPos ≤ b.endPos - b.startPos)) a b
          || (fun a b : TsNode =>
              decide (a.endPos - a.startPos ≤ b.endPos - b.startPos)) b a)
          = true := by
      intro a b
      rcases Nat.le_total (a.endPos - a.startPos) (b.endPos - b.startPos)
        with h | h <;> simp [h]
    have hmin : ∀ m ∈ candidatesOf parse content range,
        m.nid ≠ (parse content).rootId →
        node.endPos - node.startPos ≤ m.endPos - m.startPos := by
      intro m hm hmnid
      have hpw := stableSort_sorted
        (fun a b : TsNode => decide (a.endPos - a.startPos ≤ b.endPos - b.startPos))
        (fun a b c hab hbc => decide_eq_true
          (Nat.le_trans (of_decide_eq_true hab) (of_decide_eq_true hbc)))
        htot (candidatesOf parse content range)
      have hres := find?_min_of_pairwise
        (fun a b : TsNode => decide (a.endPos - a.startPos ≤ b.endPos - b.startPos))
        (fun n : TsNode => decide (n.nid ≠ (parse content).rootId)) htot
        (stableSort _ (candidatesOf parse content range)) node hpw hfind m
        ((stableSort_perm _ _).mem_iff.mpr hm) (decide_eq_true hmnid)
      exact of_decide_eq_true hres
    have hnidF : decide (node.nid = (parse content).rootId) = false :=
      decide_eq_false hnid
    refine ⟨hmemCand, hprops.2.2.1, hprops.2.2.2.1, hprops.2.2.2.2, hmin, ?_, ?_⟩
    · intro htrig
      rw [tsExtractFragment_eq_chosen, hch]
      simp only []
      by_cases hwh : (decide (node.startPos = 0)
          && decide (content.data.length - 1 ≤ node.endPos)) = true
      · have hcond : (decide (node.nid = (parse content).rootId)
            || (decide (node.startPos = 0)
                && decide (content.data.length - 1 ≤ node.endPos))) = true := by
          rw [hwh, Bool.or_true]
        rw [if_pos hcond]
      · have hnwh : ¬(node.startPos = 0 ∧ content.data.length - 1 ≤ node.endPos) := by
          simpa [Bool.and_eq_true, decide_eq_true_eq] using hwh
        have hwh' : (decide (node.startPos = 0)
            && decide (content.data.length - 1 ≤ node.endPos)) = false :=
          Bool.eq_false_iff.mpr hwh
        have h80 : 5 * (node.endPos - node.startPos) > 4 * content.data.length := by
          rcases htrig with hA | hB
          · exact absurd hA hnwh
          · exact hB
        have hcond1 : ¬((decide (node.nid = (parse content).rootId)
            || (decide (node.startPos = 0)
                && decide (content.data.length - 1 ≤ node.endPos))) = true) := by
          rw [hnidF, hwh']
          simp
        rw [if_neg hcond1]
        have hcond2 : ¬((!isDeclarationKind node.kind) = true) := by
          rw [hprops.2.2.2.2]
          simp
        rw [if_neg hcond2, if_pos h80]
    · intro hnwh hle
      rw [tsExtractFragment_eq_chosen, hch]
      simp only []
      have hwh' : (decide (node.startPos = 0)
          && decide (content.data.length - 1 ≤ node.endPos)) = false := by
        by_cases hA : node.startPos = 0
        · have hB : ¬(content.data.length - 1 ≤ node.endPos) := fun hB => hnwh ⟨hA, hB⟩
          rw [decide_eq_false hB, Bool.and_false]
        · rw [decide_eq_false hA, Bool.false_and]
      have h80' : ¬(5 * (node.endPos - node.startPos) > 4 * content.data.length) := by
        omega
      have hcond1 : ¬((decide (node.nid = (parse content).rootId)
          || (decide (node.startPos = 0)
              && decide (content.data.length - 1 ≤ node.endPos))) = true) := by
        rw [hnidF, hwh']
        simp
      rw [if_neg hcond1]
      have hcond2 : ¬((!isDeclarationKind node.kind) = true) := by
        rw [hprops.2.2.2.2]
        simp
      rw [if_neg hcond2, if_neg h80']

/-- Claim C7, witness: selecting the first line of `cxContent` extracts the
full text of `foo`'s declaration. -/
theorem spec_c7_witness :
    tsExtractFragment cxParse cxContent cxRange FragmentType.selection =
      some { content := substringOf cxContent cxNode.startPos cxNode.endPos,
             filePath := "",
             relativePath := none,
             range := some cxRange,
             type := getNodeType cxNode.kind FragmentType.selection,
             language := "typescript" } :=
  (((spec_c7 cxParse cxContent cxRange FragmentType.selection).2 cxNode
      (by decide)).2.2.2.2.2.2) (by decide) (by decide)

end CopyDeps

namespace CopyDeps

open DependencyResolver TsPlugin

/-- The closure of required declaration nodes computed by
`extractLocalDependencies` before sorting (its let-chain up to
`requiredNodes`). -/
def requiredNodesOf (parse : String → SourceAst) (content : String)
    (range : Range) (root : TsNode) : List TsNode :=
  let sourceFile := parse content
  let p :=
    match tsPositionOf content range.start.line range.start.character,
          tsPositionOf content range.stop.line range.stop.character with
    | some a, some b => (a, b)
    | _, _ => (0, content.data.length)
  let startPos := p.1
  let endPos := p.2
  let index := buildDeclarationIndex sourceFile
  let declarationByName := index.1
  let localNames := localDeclaredNames sourceFile startPos endPos
  let required0 :=
    identifiersInSpan sourceFile root startPos endPos declarationByName localNames
  let required1 :=
    match findTargetDeclarationName sourceFile startPos endPos with
    | some targetName =>
      usageDependencyNames sourceFile targetName startPos endPos
        declarationByName required0
    | none => required0
  closureLoop sourceFile declarationByName
    (required1.length + declarationByName.length + 1) required1 required1 [] []

/-- Claim C8: with a range-carrying fragment whose file is readable, the
result of resolve is exactly the topologically sorted cross-file
dependencies followed by the plugin's same-file local dependencies; and the
TypeScript plugin emits its local dependencies ordered ascending by
declaration start position. -/
theorem spec_c8 :
    (∀ (fs : FileSys) (plugin : LanguagePlugin) (priorState : ResolverState)
       (fragment : CodeFragment) (options : ResolveOptions) (range : Range)
       (extract : String → Range → String → String → List Dependency)
       (fileContent : String),
       fragment.range = some range →
       plugin.extractLocalDependencies = some extract →
       fragment.filePath ≠ "" →
       fs fragment.filePath = some fileContent →
       (resolve fs (some plugin) priorState fragment options).2.dependencies =
         topologicalSort
           (finalTraversalState fs plugin fragment options).dependencyGraph
           (finalTraversalState fs plugin fragment options).resolvedDependencies ++
           extract fileContent range fragment.filePath options.workspaceRoot) ∧
    (∀ (parse : String → SourceAst) (content : String) (range : Range)
       (filePath workspaceRoot : String),
       ∃ nodes : List TsNode,
         nodes.Pairwise (fun a b => a.startPos ≤ b.startPos) ∧
         tsExtractLocalDependencies parse content range filePath workspaceRoot =
           nodes.map (mkLocalDependency content filePath
             (NodePath.relative workspaceRoot filePath)
             (buildDeclarationIndex (parse content)).2)) := by
  constructor
  · intro fs plugin priorState fragment options range extract fileContent hr he hfp hread
    rw [(resolve_some_shape fs plugin priorState fragment options).1]
    congr 1
    unfold localDepsOf
    rw [hr, he]
    simp only []
    rw [if_neg hfp, hread]
  · intro parse content range filePath workspaceRoot
    have htrans : ∀ a b c : TsNode, decide (a.startPos ≤ b.startPos) = true →
        decide (b.startPos ≤ c.startPos) = true →
        decide (a.startPos ≤ c.startPos) = true :=
      fun a b c hab hbc => decide_eq_true
        (Nat.le_trans (of_decide_eq_true hab) (of_decide_eq_true hbc))
    have htot : ∀ a b : TsNode,
        (decide (a.startPos ≤ b.startPos) || decide (b.startPos ≤ a.startPos))
          = true := by
      intro a b
      rcases Nat.le_total a.startPos b.startPos with h | h <;> simp [h]
    cases hhead : (parse content).nodes.head? with
    | none =>
      refine ⟨[], List.Pairwise.nil, ?_⟩
      simp [tsExtractLocalDependencies, hhead]
    | some root =>
      have hX : tsExtractLocalDependencies parse content range filePath
          workspaceRoot =
          (stableSort (fun a b : TsNode => decide (a.startPos ≤ b.startPos))
            (requiredNodesOf parse content range root)).map
            (mkLocalDependency content filePath
              (NodePath.relative workspaceRoot filePath)
              (buildDeclarationIndex (parse content)).2) := by
        simp only [tsExtractLocalDependencies, requiredNodesOf, hhead]
      refine ⟨stableSort (fun a b : TsNode => decide (a.startPos ≤ b.startPos))
        (requiredNodesOf parse content range root), ?_, hX⟩
      exact (stableSort_sorted _ htrans htot _).imp (fun h => of_decide_eq_true h)

/-- Claim C8, witness at the concrete selection of `foo`. -/
theorem spec_c8_witness :
    (resolve cxFs (some cxPlugin) ResolverState.empty cxFrag scOpts).2.dependencies =
      topologicalSort (finalTraversalState cxFs cxPlugin cxFrag scOpts).dependencyGraph
        (finalTraversalState cxFs cxPlugin cxFrag scOpts).resolvedDependencies ++
        tsExtractLocalDependencies cxParse cxContent cxRange cxFrag.filePath
          scOpts.workspaceRoot :=
  spec_c8.1 cxFs cxPlugin ResolverState.empty cxFrag scOpts cxRange _ cxContent
    rfl rfl (by decide) (by decide)

/-- Claim C9, counterexample: the pseudo-path of the local dependency of
`bar` is exactly a real file-system path held in the resolved-dependency
cache of the same call — a file named `/w/a.ts#local:bar` on disk collides
with the reserved-delimiter suffixing. -/
theorem spec_c9_counterexample :
    (tsExtractLocalDependencies cxParse cxContent cxRange cxFrag.filePath
        scOpts.workspaceRoot).map Dependency.filePath = ["/w/a.ts#local:bar"] ∧
    "/w/a.ts#local:bar" ∈
      ((resolve cxFs (some cxPlugin) ResolverState.empty cxFrag
          scOpts).1.resolvedDependencies.map Prod.fst) :=
  ⟨by decide, by decide⟩

/-- Claim C9 (amended): every local dependency's filePath is the fragment's
file path suffixed with `#local:` and the declaration's name (or `#local`
when anonymous); the pseudo-path therefore differs from every path not
containing the substring `#local` — but not necessarily from every real
file-system path, since file names may contain `#local`. -/
theorem spec_c9 :
    ∀ (parse : String → SourceAst) (content : String) (range : Range)
      (filePath workspaceRoot : String),
      ∀ d ∈ tsExtractLocalDependencies parse content range filePath workspaceRoot,
        ((∃ nm, d.filePath = filePath ++ ("#local:" ++ nm)) ∨
          d.filePath = filePath ++ "#local") ∧
        (∀ k, jsIncludes k "#local" = false → d.filePath ≠ k) := by
  intro parse content range filePath workspaceRoot d hd
  cases hhead : (parse content).nodes.head? with
  | none =>
    simp only [tsExtractLocalDependencies, hhead] at hd
    exact absurd hd (List.not_mem_nil d)
  | some root =>
    simp only [tsExtractLocalDependencies, hhead] at hd
    obtain ⟨node, hnode, hmk⟩ := List.mem_map.mp hd
    have hform : (∃ nm, d.filePath = filePath ++ ("#local:" ++ nm)) ∨
        d.filePath = filePath ++ "#local" := by
      cases hname : (((buildDeclarationIndex
          (parse content)).2.lookup node.nid).getD []).head? with
      | some nm =>
        left
        refine ⟨nm, ?_⟩
        rw [← hmk]
        simp [mkLocalDependency, hname]
      | none =>
        right
        rw [← hmk]
        simp [mkLocalDependency, hname]
    have hinc : jsIncludes d.filePath "#local" = true := by
      unfold jsIncludes
      apply decide_eq_true
      rcases hform with ⟨nm, hnm⟩ | hnm <;> rw [hnm]
      · refine ⟨filePath.data, ':' :: nm.data, ?_⟩
        rw [String.data_append filePath ("#local:" ++ nm), String.data_append]
        rw [show ("#local:" : String).data = ("#local" : String).data ++ [':']
          from by decide]
        simp [List.append_assoc]
      · refine ⟨filePath.data, [], ?_⟩
        rw [String.data_append]
        simp
    refine ⟨hform, ?_⟩
    intro k hk heq
    rw [heq] at hinc
    rw [hk] at hinc
    exact Bool.false_ne_true hinc

/-- Claim C9, witness: the pseudo-path of `bar`'s local dependency differs
from the `#local`-free path `/w/b.ts`. -/
theorem spec_c9_witness : cxDep.filePath ≠ "/w/b.ts" :=
  (spec_c9 cxParse cxContent cxRange "/w/a.ts" "/w" cxDep (by decide)).2
    "/w/b.ts" (by decide)

/-- Claim C10: extractFragment is total — every content, range and requested
type yields a fragment, never null. -/
theorem spec_c10 :
    ∀ (parse : String → SourceAst) (content : String) (range : Range)
      (type : FragmentType),
      ∃ frag, tsExtractFragment parse content range type = some frag := by
  intro parse content range type
  rw [tsExtractFragment_eq_chosen]
  cases chosenNodeOf parse content range with
  | none => exact ⟨_, rfl⟩
  | some node =>
    simp only []
    split_ifs <;> exact ⟨_, rfl⟩

end CopyDeps
